import Mathlib

set_option linter.unusedVariables false

/-!
Verification development for the `@uistate/renderer` direct-binding reactive
renderer (`src/renderer.js`).

The JavaScript code is shallowly embedded:
* JS values are `JsVal` (numbers are modelled as integers; floating point,
  arrays and host objects are outside the scope of the verified claims;
  `undef` models JavaScript's `undefined`, i.e. an absent value).
* The external store (`get` / `set` / `subscribe` / `batch`, consumed by the
  renderer through the contract of spec section 6) is modelled by `Store`:
  a root `JsVal` addressed by dot-separated paths, together with a log of the
  writes performed and a log of the states observed by subscribers (one entry
  per notification pass; a batch flushes exactly one pass).
* DOM elements are modelled by their preorder node list (the element itself
  followed by its descendants), which is exactly the list the scanner walks.
-/

/-- A JavaScript value, as used by the renderer.  `undef` is `undefined`;
`obj` is a plain object as an insertion-ordered association list. -/
inductive JsVal where
  | undef : JsVal
  | null : JsVal
  | bool : Bool → JsVal
  | num : Int → JsVal
  | str : String → JsVal
  | obj : List (String × JsVal) → JsVal
deriving Repr

/-- First-occurrence lookup in an association list (property read). -/
def assocGet {α : Type} : List (String × α) → String → Option α
  | [], _ => none
  | (k, v) :: rest, key => if k = key then some v else assocGet rest key

/-- Update an existing key in place, else append — JavaScript property
assignment on a plain object (insertion order preserved). -/
def assocSet {α : Type} : List (String × α) → String → α → List (String × α)
  | [], key, v => [(key, v)]
  | (k, w) :: rest, key, v =>
    if k = key then (key, v) :: rest else (k, w) :: assocSet rest key v

/-- JavaScript truthiness of a value. -/
def jsTruthy : JsVal → Bool
  | JsVal.undef => false
  | JsVal.null => false
  | JsVal.bool b => b
  | JsVal.num n => n != 0
  | JsVal.str s => s != ""
  | JsVal.obj _ => true

/-- The JavaScript `typeof` operator on the modelled values. -/
def jsTypeof : JsVal → String
  | JsVal.undef => "undefined"
  | JsVal.null => "object"
  | JsVal.bool _ => "boolean"
  | JsVal.num _ => "number"
  | JsVal.str _ => "string"
  | JsVal.obj _ => "object"

/-- JavaScript `a || b`. -/
def jsOr (a b : JsVal) : JsVal := if jsTruthy a then a else b

/-- `Object.keys(v)` / own enumerable properties: the fields of a plain
object, the index-to-character table of a string, nothing otherwise. -/
def jsOwnEnumerable : JsVal → List (String × JsVal)
  | JsVal.obj fs => fs
  | JsVal.str s => (s.toList.enum).map (fun p => (Nat.repr p.1, JsVal.str (String.mk [p.2])))
  | _ => []

/-- `Object.keys(v)`. -/
def jsKeys (v : JsVal) : List String := (jsOwnEnumerable v).map (fun p => p.1)

/-- Property read `v[k]` (absent property reads as `undefined`). -/
def jsGet (v : JsVal) (k : String) : JsVal :=
  match assocGet (jsOwnEnumerable v) k with
  | some w => w
  | none => JsVal.undef

/-- JavaScript loose `x != null` (false exactly for `null` and `undefined`). -/
def jsNotNull : JsVal → Bool
  | JsVal.null => false
  | JsVal.undef => false
  | _ => true

mutual

/-- The JSON round trip `JSON.parse(JSON.stringify(v))` performed by the push
action: object fields whose value is `undefined` are dropped, everything else
is copied structurally. -/
def jsonClone : JsVal → JsVal
  | JsVal.obj fs => JsVal.obj (jsonCloneFields fs)
  | v => v

/-- Field-list part of `jsonClone`. -/
def jsonCloneFields : List (String × JsVal) → List (String × JsVal)
  | [] => []
  | (_, JsVal.undef) :: rest => jsonCloneFields rest
  | (k, v) :: rest => (k, jsonClone v) :: jsonCloneFields rest

end

-- ---------------------------------------------------------------------------
-- Character-level string helpers (the renderer's `indexOf` / `lastIndexOf` /
-- `slice` / `trim` / `split` idioms, modelled on `List Char`).
-- ---------------------------------------------------------------------------

/-- Whitespace recognised by the modelled `trim` (ASCII subset). -/
def isJsWs (c : Char) : Bool := c = ' ' || c = '\t' || c = '\n' || c = '\r'

/-- `s.trim()` on a character list. -/
def trimChars (l : List Char) : List Char :=
  ((l.dropWhile isJsWs).reverse.dropWhile isJsWs).reverse

/-- `s.trim()`. -/
def jsTrim (s : String) : String := String.mk (trimChars s.toList)

/-- Split at the first occurrence of `c`; `none` when `c` does not occur
(`indexOf` returning `-1`). -/
def splitFirstChar (c : Char) : List Char → Option (List Char × List Char)
  | [] => none
  | x :: xs =>
    if x = c then some ([], xs)
    else
      match splitFirstChar c xs with
      | some (l, r) => some (x :: l, r)
      | none => none

/-- Split at the last occurrence of `c`; `none` when `c` does not occur
(`lastIndexOf` returning `-1`). -/
def splitLastChar (c : Char) : List Char → Option (List Char × List Char)
  | [] => none
  | x :: xs =>
    match splitLastChar c xs with
    | some (l, r) => some (x :: l, r)
    | none => if x = c then some ([], xs) else none

/-- Split a character list on every occurrence of `c` (the store's
interpretation of a dot-separated path). -/
def splitOnChar (c : Char) : List Char → List (List Char)
  | [] => [[]]
  | x :: xs =>
    match splitOnChar c xs with
    | [] => [[]]
    | y :: ys => if x = c then [] :: y :: ys else (x :: y) :: ys

/-- A dot-separated path as its list of keys. -/
def splitPath (s : String) : List String :=
  (splitOnChar '.' s.toList).map String.mk

-- ---------------------------------------------------------------------------
-- Numeric and JSON literal parsing (the `Number(expr)` / `JSON.parse(expr)`
-- host primitives used by `evalExpr`, modelled on integer literals).
-- ---------------------------------------------------------------------------

/-- Numeric value of a decimal digit character. -/
def digitVal (c : Char) : Nat := c.toNat - 48

/-- Value of a decimal digit string, most significant digit first. -/
def decValChars (l : List Char) : Nat := l.foldl (fun a c => 10 * a + digitVal c) 0

/-- A nonempty all-digit character list, as a number. -/
def digitsVal (l : List Char) : Option Nat :=
  if l = [] then none
  else if l.all Char.isDigit then some (decValChars l) else none

/-- An optionally signed decimal integer literal. -/
def parseSignedDigits : List Char → Option Int
  | '-' :: rest => (digitsVal rest).map (fun n => -(n : Int))
  | '+' :: rest => (digitsVal rest).map (fun n => (n : Int))
  | l => (digitsVal l).map (fun n => (n : Int))

/-- The renderer's numeric-literal test `!isNaN(Number(expr)) && expr.trim()
!== ''`: the value of `expr` as a number when its trimmed form is a nonempty
integer literal (floating point is outside the modelled scope). -/
def numLit (s : String) : Option Int :=
  match trimChars s.toList with
  | [] => none
  | l => parseSignedDigits l

/-- `Number(current) || 0`: numeric coercion with every non-numeric value
(including `NaN` results) collapsed to `0`. -/
def jsToNumOr0 : JsVal → Int
  | JsVal.undef => 0
  | JsVal.null => 0
  | JsVal.bool b => if b then 1 else 0
  | JsVal.num n => n
  | JsVal.str s => (numLit s).getD 0
  | JsVal.obj _ => 0

/-- Skip JSON whitespace. -/
def jsonSkipWs (l : List Char) : List Char := l.dropWhile isJsWs

/-- Body of a JSON string after the opening quote; escapes are outside the
modelled scope. -/
def jsonStringChars : List Char → Option (List Char × List Char)
  | [] => none
  | c :: rest =>
    if c = '"' then some ([], rest)
    else if c = '\\' then none
    else (jsonStringChars rest).map (fun p => (c :: p.1, p.2))

mutual

/-- Fuel-bounded recursive-descent JSON value (the host's `JSON.parse`,
modelled from the spec on the null / boolean / integer / string / object
fragment; arrays and floats are outside the claims' scope). -/
def jsonVal : Nat → List Char → Option (JsVal × List Char)
  | 0, _ => none
  | fuel + 1, l =>
    match jsonSkipWs l with
    | 'n' :: 'u' :: 'l' :: 'l' :: rest => some (JsVal.null, rest)
    | 't' :: 'r' :: 'u' :: 'e' :: rest => some (JsVal.bool true, rest)
    | 'f' :: 'a' :: 'l' :: 's' :: 'e' :: rest => some (JsVal.bool false, rest)
    | '"' :: rest => (jsonStringChars rest).map (fun p => (JsVal.str (String.mk p.1), p.2))
    | '\x7b' :: rest =>
      (match jsonSkipWs rest with
       | '\x7d' :: rest1 => some (JsVal.obj [], rest1)
       | _ => (jsonMembers fuel rest).map (fun p => (JsVal.obj p.1, p.2)))
    | '-' :: rest =>
      (match rest.takeWhile Char.isDigit with
       | [] => none
       | ds => some (JsVal.num (-(decValChars ds : Int)), rest.drop ds.length))
    | c :: rest =>
      if c.isDigit then
        let ds := (c :: rest).takeWhile Char.isDigit
        some (JsVal.num (decValChars ds), (c :: rest).drop ds.length)
      else none
    | [] => none

/-- One or more `"key": value` members, ending at the closing brace. -/
def jsonMembers : Nat → List Char → Option (List (String × JsVal) × List Char)
  | 0, _ => none
  | fuel + 1, l =>
    match jsonSkipWs l with
    | '"' :: rest =>
      (match jsonStringChars rest with
       | none => none
       | some (kcs, rest1) =>
         match jsonSkipWs rest1 with
         | ':' :: rest2 =>
           (match jsonVal fuel rest2 with
            | none => none
            | some (v, rest3) =>
              match jsonSkipWs rest3 with
              | ',' :: rest4 =>
                (jsonMembers fuel rest4).map (fun p => ((String.mk kcs, v) :: p.1, p.2))
              | '\x7d' :: rest4 => some ([(String.mk kcs, v)], rest4)
              | _ => none)
         | _ => none)
    | _ => none

end

/-- `JSON.parse` on a whole string: a single value with only trailing
whitespace allowed. -/
def jsonParse (s : String) : Option JsVal :=
  match jsonVal (s.toList.length + 1) s.toList with
  | some (v, rest) => if jsonSkipWs rest = [] then some v else none
  | none => none

-- ---------------------------------------------------------------------------
-- The renderer's pure helpers (`parseSetExpr`, `evalExpr`, `parsePush`,
-- embedded from src/renderer.js lines 19-44).
-- ---------------------------------------------------------------------------

/-- Result of `parseSetExpr`. -/
structure SetExpr where
  path : String
  expr : Option String
deriving Repr, DecidableEq

/-- `parseSetExpr(raw)`: split on the first `:`; both halves trimmed; the
expression is absent when there is no `:`. -/
def parseSetExpr (raw : String) : SetExpr :=
  match splitFirstChar ':' raw.toList with
  | none => ⟨jsTrim raw, none⟩
  | some (l, r) => ⟨String.mk (trimChars l), some (String.mk (trimChars r))⟩

/-- `evalExpr(expr, current)`: the renderer's expression evaluator. -/
def evalExpr (expr : Option String) (current : JsVal) : JsVal :=
  match expr with
  | none => current
  | some e =>
    if e = "increment" then JsVal.num (jsToNumOr0 current + 1)
    else if e = "decrement" then JsVal.num (jsToNumOr0 current - 1)
    else if e = "toggle" then JsVal.bool (!jsTruthy current)
    else if e = "true" then JsVal.bool true
    else if e = "false" then JsVal.bool false
    else if e = "null" then JsVal.null
    else
      match numLit e with
      | some n => JsVal.num n
      | none =>
        match jsonParse e with
        | some v => v
        | none => JsVal.str e

/-- The inner group of `^push\(([^)]+)\)$`: the characters after `push(`
must be a nonempty run without `)` followed by the final `)`. -/
def pushSourceChars (rest : List Char) : Option (List Char) :=
  match rest.reverse with
  | ')' :: revInner =>
    let inner := revInner.reverse
    if inner = [] then none
    else if inner.contains ')' then none
    else some inner
  | _ => none

/-- `parsePush(expr)`: `none` for falsy or non-push input, `some none` for a
bare `push`, `some (some src)` for `push(src)` with `src` trimmed. -/
def parsePush : Option String → Option (Option String)
  | none => none
  | some s =>
    if s = "" then none
    else if s = "push" then some none
    else
      match s.toList with
      | 'p' :: 'u' :: 's' :: 'h' :: '(' :: rest =>
        (match pushSourceChars rest with
         | some inner => some (some (String.mk (trimChars inner)))
         | none => none)
      | _ => none

-- ---------------------------------------------------------------------------
-- The store (external collaborator) and the delegated action `executeSet`.
-- ---------------------------------------------------------------------------

/-- Navigate a dot-path through nested objects; any miss is `undefined`. -/
def objGetD (fs : List (String × JsVal)) (k : String) : JsVal :=
  (assocGet fs k).getD JsVal.undef

/-- Modelled from the spec: the external store's hierarchical read —
`get(path)` follows the path's keys through nested objects and returns
`undefined` on any miss. -/
def getPath : JsVal → List String → JsVal
  | v, [] => v
  | JsVal.obj fs, k :: ks => getPath (objGetD fs k) ks
  | _, _ :: _ => JsVal.undef

/-- Modelled from the spec: the external store's hierarchical write —
`set(path, v)` replaces the value at the path, creating fresh objects along
the way where the path runs through a non-object. -/
def setPath : JsVal → List String → JsVal → JsVal
  | _, [], v => v
  | JsVal.obj fs, k :: ks, v => JsVal.obj (assocSet fs k (setPath (objGetD fs k) ks v))
  | _, k :: ks, v => JsVal.obj (assocSet [] k (setPath JsVal.undef ks v))

/-- Modelled from the spec: the store consumed through the section-6 contract.
`root` is the hierarchical state, `writes` logs every `set` performed, and
`obs` logs the state delivered to subscribers at each notification pass. -/
structure Store where
  root : JsVal
  writes : List (String × JsVal)
  obs : List JsVal

/-- Modelled from the spec: `store.get(path)`. -/
def Store.get (s : Store) (path : String) : JsVal := getPath s.root (splitPath path)

/-- Modelled from the spec: `store.set(path, v)` — one write, one
notification pass. -/
def Store.set (s : Store) (path : String) (v : JsVal) : Store :=
  let r := setPath s.root (splitPath path) v
  ⟨r, s.writes ++ [(path, v)], s.obs ++ [r]⟩

/-- Modelled from the spec: `store.batch(fn)` — the body's writes land, and
subscribers receive exactly one notification pass, after all of them. -/
def Store.batch (s : Store) (body : Store → Store) : Store :=
  let t := body ⟨s.root, s.writes, []⟩
  ⟨t.root, t.writes, s.obs ++ [t.root]⟩

/-- The pushed entry's key "t_" + `Date.now()`; the instant is the explicit
parameter `now`. -/
def genKey (now : Nat) : String := "t_" ++ Nat.repr now

/-- The type-appropriate zero written back onto a pushed source's field. -/
def zeroValue : JsVal → JsVal
  | JsVal.str _ => JsVal.str ""
  | JsVal.bool _ => JsVal.bool false
  | JsVal.num _ => JsVal.num 0
  | _ => JsVal.null

/-- `executeSet(raw)` (src/renderer.js lines 133-175): delete, push, or plain
evaluate-and-set, against the store; `now` stands for `Date.now()`. -/
def executeSet (now : Nat) (raw : String) (store : Store) : Store :=
  let pe := parseSetExpr raw
  if pe.expr = some "delete" then
    match splitLastChar '.' pe.path.toList with
    | none => store
    | some (pcs, kcs) =>
      let parentPath := String.mk pcs
      let key := String.mk kcs
      let parent := jsOr (store.get parentPath) (JsVal.obj [])
      let updated := (jsKeys parent).foldl
        (fun acc k => if k = key then acc else assocSet acc k (jsGet parent k)) []
      store.set parentPath (JsVal.obj updated)
  else
    match parsePush pe.expr with
    | some srcOpt =>
      match srcOpt with
      | none => store
      | some sourcePath =>
        if sourcePath = "" then store
        else
        let src := store.get sourcePath
        if !jsTruthy src || jsTypeof src != "object" then store
        else
          store.batch (fun st =>
            let st1 := st.set (pe.path ++ "." ++ genKey now) (jsonClone src)
            (jsKeys src).foldl
              (fun acc k => acc.set (sourcePath ++ "." ++ k) (zeroValue (jsGet src k))) st1)
    | none => store.set pe.path (evalExpr pe.expr (store.get pe.path))

-- ---------------------------------------------------------------------------
-- Path comparison (used to state frame properties of the hierarchical store).
-- ---------------------------------------------------------------------------

/-- `startsWithKeys p q` holds when the key list `q` extends `p`. -/
def startsWithKeys : List String → List String → Bool
  | [], _ => true
  | _ :: _, [] => false
  | a :: p, b :: q => (a == b) && startsWithKeys p q

/-- Two key paths address disjoint subtrees: neither extends the other. -/
def PathsApart (p q : List String) : Prop :=
  startsWithKeys p q = false ∧ startsWithKeys q p = false

instance (p q : List String) : Decidable (PathsApart p q) := by
  unfold PathsApart; infer_instance

-- ---------------------------------------------------------------------------
-- The DOM model: an element is its preorder node list (the element itself
-- followed by every descendant — exactly the list `[el,
-- ...el.querySelectorAll('*')]` that the scanner walks).  DOM node identity is
-- the numeric `id`; `container.contains(node)` is membership in the
-- container's node list.  The container's rendered children are mirrored by
-- the values of the reconciler's key-to-element mapping (the code appends to
-- and removes from the container in lockstep with that mapping).
-- ---------------------------------------------------------------------------

/-- A DOM node: identity plus attributes. -/
structure DNode where
  id : Nat
  attrs : List (String × String)
deriving Repr, DecidableEq

/-- An element as its preorder node list (itself, then its descendants). -/
structure Elem where
  nodes : List DNode
deriving Repr, DecidableEq

/-- The node identities inside an element (itself included). -/
def elemIds (el : Elem) : List Nat := el.nodes.map (fun n => n.id)

/-- `container.contains(node)`: the node is the container or a descendant. -/
def Elem.containsNode (el : Elem) (nid : Nat) : Bool := (elemIds el).contains nid

/-- `node.getAttribute(name)` (absent attribute reads as `none`). -/
def DNode.attr (n : DNode) (name : String) : Option String := assocGet n.attrs name

/-- The binding families created by the scanner. -/
inductive BindKind where
  | text : BindKind
  | value : BindKind
  | focus : BindKind
  | dataSlot : String → BindKind
  | attrSlot : String → BindKind
deriving Repr, DecidableEq

/-- A recorded registry entry: the owning node, the bound store path, and the
binding family (the revocation handle's identity). -/
structure Binding where
  node : Nat
  path : String
  kind : BindKind
deriving Repr, DecidableEq

/-- The bindings `scanBindings` creates for one unvisited node, in source
order: `bind-text`, `bind-value`, `bind-focus`, then the `bind-data-*` /
`bind-attr-*` attribute walk. -/
def nodeBindings (n : DNode) : List Binding :=
  (match n.attr "bind-text" with
   | some p => [⟨n.id, p, BindKind.text⟩]
   | none => []) ++
  (match n.attr "bind-value" with
   | some p => [⟨n.id, p, BindKind.value⟩]
   | none => []) ++
  (match n.attr "bind-focus" with
   | some p => [⟨n.id, p, BindKind.focus⟩]
   | none => []) ++
  n.attrs.filterMap (fun a =>
    if "bind-data-".isPrefixOf a.1 then some ⟨n.id, a.2, BindKind.dataSlot (a.1.drop 10)⟩
    else if "bind-attr-".isPrefixOf a.1 then some ⟨n.id, a.2, BindKind.attrSlot (a.1.drop 10)⟩
    else none)

/-- The mount's mutable scanner state: the `BOUND` idempotency marks and the
`subs` registry. -/
structure ScanState where
  marks : List Nat
  subs : List Binding
deriving Repr, DecidableEq

/-- One step of the scanner's node loop: skip a marked node, otherwise mark
it and record its bindings. -/
def scanNode (ss : ScanState) (n : DNode) : ScanState :=
  if n.id ∈ ss.marks then ss
  else ⟨n.id :: ss.marks, ss.subs ++ nodeBindings n⟩

/-- `scanBindings(el)` (src/renderer.js lines 70-129): walk the element and
its descendants, binding each unvisited node. -/
def scanBindings (ss : ScanState) (el : Elem) : ScanState :=
  el.nodes.foldl scanNode ss

/-- `cleanupWithin(container)` (src/renderer.js lines 59-66): the reverse
index loop with in-place `splice`.  First component: the surviving registry;
second: the revoked entries, in invocation order (last recorded first). -/
def cleanupWithin (container : Elem) : List Binding → List Binding × List Binding
  | [] => ([], [])
  | b :: rest =>
    let p := cleanupWithin container rest
    if container.containsNode b.node then (p.1, p.2 ++ [b]) else (b :: p.1, p.2)

-- ---------------------------------------------------------------------------
-- The keyed-collection reconciler (src/renderer.js lines 200-258).
-- ---------------------------------------------------------------------------

/-- Placeholder substitution into the cached template markup. -/
def resolveTpl (html collPath k : String) : String :=
  (html.replace "\x7b_key\x7d" k).replace "\x7b_path\x7d" (collPath ++ "." ++ k)

/-- The reconciler's key list: the collection's keys whose value is not
`null`/`undefined`, in insertion order. -/
def collKeys (storeRoot : JsVal) (collPath : String) : List String :=
  let coll := jsOr (getPath storeRoot (splitPath collPath)) (JsVal.obj [])
  (jsKeys coll).filter (fun k => jsNotNull (jsGet coll k))

/-- `keys.join(',')`. -/
def joinKeys : List String → String
  | [] => ""
  | k :: ks => ks.foldl (fun acc x => acc ++ "," ++ x) k

/-- Per-collection reconciler state: the key-to-element mapping (insertion
order — its values are the container's rendered children) and the cached
joined-key signature. -/
structure CollState where
  rendered : List (String × Elem)
  lastKeyStr : String
deriving Repr, DecidableEq

/-- The keys of the key-to-element mapping. -/
def keysOf (r : List (String × Elem)) : List String := r.map (fun kv => kv.1)

/-- `el.dataset.key = k`: tag the element's root node with `data-key`. -/
def setDataKey (el : Elem) (k : String) : Elem :=
  ⟨el.nodes.modifyHead (fun n => ⟨n.id, assocSet n.attrs "data-key" k⟩)⟩

/-- The reconciler's removal loop: for each previously rendered key no longer
present, revoke the bindings within its element and drop it from the mapping
(and hence from the container). -/
def removePhase (keys : List String) :
    List (String × Elem) → List Binding → List (String × Elem) × List Binding
  | [], subs => ([], subs)
  | (k, el) :: rest, subs =>
    if k ∈ keys then
      let p := removePhase keys rest subs
      ((k, el) :: p.1, p.2)
    else removePhase keys rest (cleanupWithin el subs).1

/-- The reconciler's insertion loop: for each present key not yet rendered,
parse the substituted markup (host parsing abstracted as `pm`; the created
element is the first root, or the key is skipped when there is none), tag it,
record it, and scan it. -/
def addPhase (pm : String → List Elem) (collPath tpl : String) :
    List String → List (String × Elem) → ScanState → List (String × Elem) × ScanState
  | [], rendered, ss => (rendered, ss)
  | k :: ks, rendered, ss =>
    if k ∈ keysOf rendered then addPhase pm collPath tpl ks rendered ss
    else
      match pm (resolveTpl tpl collPath k) with
      | [] => addPhase pm collPath tpl ks rendered ss
      | el :: _ =>
        let el1 := setDataKey el k
        addPhase pm collPath tpl ks (rendered ++ [(k, el1)]) (scanBindings ss el1)

/-- `reconcile()` (src/renderer.js lines 215-249).  `pm` is the host's markup
parser (modelled from the spec: `tmp.innerHTML = html` followed by reading
`tmp`'s children), `storeRoot` the store state being reconciled against. -/
def reconcile (pm : String → List Elem) (collPath tpl : String) (storeRoot : JsVal)
    (cs : CollState) (ss : ScanState) : CollState × ScanState :=
  let keys := collKeys storeRoot collPath
  let keyStr := joinKeys keys
  if keyStr = cs.lastKeyStr then (cs, ss)
  else
    let p := removePhase keys cs.rendered ss.subs
    let q := addPhase pm collPath tpl keys p.1 ⟨ss.marks, p.2⟩
    (⟨q.1, keyStr⟩, q.2)

/-- The invariant the reconciler maintains between runs: the cached signature
is the join of some key list whose members are exactly the rendered keys. -/
def InvColl (cs : CollState) : Prop :=
  ∃ L : List String, cs.lastKeyStr = joinKeys L ∧
    (∀ k ∈ L, k ≠ "" ∧ ',' ∉ k.toList) ∧
    (∀ x, x ∈ keysOf cs.rendered ↔ x ∈ L)

-- ---------------------------------------------------------------------------
-- Decimal printing (the semantics of core `Nat.repr`, used by `genKey`).
-- ---------------------------------------------------------------------------

/-- Decimal digits of `n`, most significant first (the characters
`Nat.repr n` produces). -/
def decRepr (n : Nat) : List Char :=
  if h : n < 10 then [Nat.digitChar n]
  else decRepr (n / 10) ++ [Nat.digitChar (n % 10)]
decreasing_by exact Nat.div_lt_self (by omega) (by omega)

-- =========================================================================
-- Lemmas: association lists
-- =========================================================================

theorem mk_toList (s : String) : String.mk s.toList = s := rfl

theorem assocGet_assocSet_self {α : Type} (l : List (String × α)) (k : String) (v : α) :
    assocGet (assocSet l k v) k = some v := by
  induction l with
  | nil => simp [assocSet, assocGet]
  | cons p t ih =>
    obtain ⟨a, b⟩ := p
    by_cases h : a = k
    · subst h; simp [assocSet, assocGet]
    · simp [assocSet, assocGet, h, ih]

theorem assocGet_assocSet_ne {α : Type} (l : List (String × α)) (k k2 : String) (v : α)
    (h : k ≠ k2) : assocGet (assocSet l k v) k2 = assocGet l k2 := by
  induction l with
  | nil => show (if k = k2 then some v else assocGet [] k2) = assocGet [] k2; rw [if_neg h]
  | cons p t ih =>
    obtain ⟨a, b⟩ := p
    by_cases ha : a = k
    · subst ha; simp [assocSet, assocGet, h]
    · by_cases hk2 : a = k2
      · subst hk2; simp [assocSet, assocGet, ha]
      · simp [assocSet, assocGet, ha, hk2, ih]

theorem assocGet_of_mem_nodup {α : Type} (l : List (String × α)) (kv : String × α)
    (hnd : (l.map (fun p => p.1)).Nodup) (hm : kv ∈ l) : assocGet l kv.1 = some kv.2 := by
  induction l with
  | nil => cases hm
  | cons p t ih =>
    obtain ⟨a, b⟩ := p
    rcases List.mem_cons.mp hm with rfl | hm2
    · simp [assocGet]
    · have ha : a ≠ kv.1 := by
        intro he
        exact (List.nodup_cons.mp hnd).1 (he ▸ List.mem_map_of_mem (fun p => p.1) hm2)
      simp [assocGet, ha, ih (List.nodup_cons.mp hnd).2 hm2]

theorem assocGet_eq_none_append {α : Type} (l1 l2 : List (String × α)) (k : String)
    (h : assocGet l1 k = none) : assocGet (l1 ++ l2) k = assocGet l2 k := by
  induction l1 with
  | nil => rfl
  | cons p t ih =>
    obtain ⟨a, b⟩ := p
    by_cases ha : a = k
    · simp [assocGet, ha] at h
    · simp only [assocGet, if_neg ha, List.cons_append] at h ⊢
      exact ih h

theorem assocSet_of_not_mem {α : Type} (l : List (String × α)) (k : String) (v : α)
    (h : assocGet l k = none) : assocSet l k v = l ++ [(k, v)] := by
  induction l with
  | nil => rfl
  | cons p t ih =>
    obtain ⟨a, b⟩ := p
    by_cases ha : a = k
    · simp [assocGet, ha] at h
    · simp only [assocGet, if_neg ha] at h
      simp [assocSet, ha, ih h]

-- =========================================================================
-- Lemmas: hierarchical paths in the store
-- =========================================================================

theorem getPath_undef (r : List String) : getPath JsVal.undef r = JsVal.undef := by
  cases r <;> rfl

theorem jsGet_obj (fs : List (String × JsVal)) (k : String) :
    jsGet (JsVal.obj fs) k = objGetD fs k := by
  show (match assocGet fs k with | some w => w | none => JsVal.undef) = (assocGet fs k).getD JsVal.undef
  cases assocGet fs k <;> rfl

theorem getPath_setPath_self (p : List String) (s v : JsVal) :
    getPath (setPath s p v) p = v := by
  induction p generalizing s with
  | nil => simp [setPath, getPath]
  | cons k ks ih =>
    cases s <;>
      simp only [setPath, getPath, objGetD, assocGet_assocSet_self, Option.getD_some] <;>
      exact ih _

theorem SW_extend (p q r1 r2 : List String)
    (h : startsWithKeys (p ++ r1) (q ++ r2) = true) :
    startsWithKeys p q = true ∨ startsWithKeys q p = true := by
  induction p generalizing q with
  | nil => exact Or.inl rfl
  | cons a p ih =>
    cases q with
    | nil => exact Or.inr rfl
    | cons b q =>
      simp only [List.cons_append, startsWithKeys, Bool.and_eq_true, beq_iff_eq] at h ⊢
      obtain ⟨hab, h2⟩ := h
      rcases ih q h2 with h3 | h3
      · exact Or.inl ⟨hab, h3⟩
      · exact Or.inr ⟨hab.symm, h3⟩

theorem PathsApart.append {p q : List String} (r1 r2 : List String) (h : PathsApart p q) :
    PathsApart (p ++ r1) (q ++ r2) := by
  obtain ⟨h1, h2⟩ := h
  constructor
  · cases hb : startsWithKeys (p ++ r1) (q ++ r2) with
    | false => rfl
    | true => rcases SW_extend p q r1 r2 hb with h3 | h3 <;> simp_all
  · cases hb : startsWithKeys (q ++ r2) (p ++ r1) with
    | false => rfl
    | true => rcases SW_extend q p r2 r1 hb with h3 | h3 <;> simp_all

theorem PathsApart.symm {p q : List String} (h : PathsApart p q) : PathsApart q p :=
  ⟨h.2, h.1⟩

theorem SW_snoc_ne (p : List String) (a b : String) (h : a ≠ b) :
    startsWithKeys (p ++ [a]) (p ++ [b]) = false := by
  induction p with
  | nil => simp [startsWithKeys, h]
  | cons c p ih => simp [startsWithKeys, ih]

theorem PathsApart_snoc_ne (p : List String) (a b : String) (h : a ≠ b) :
    PathsApart (p ++ [a]) (p ++ [b]) :=
  ⟨SW_snoc_ne p a b h, SW_snoc_ne p b a (fun hb => h hb.symm)⟩

theorem fresh_same_case (a : String) (p r : List String) (v : JsVal)
    (hih : getPath (setPath JsVal.undef p v) r = getPath JsVal.undef r) :
    getPath (JsVal.obj (assocSet [] a (setPath JsVal.undef p v))) (a :: r) = JsVal.undef := by
  show getPath (objGetD (assocSet [] a (setPath JsVal.undef p v)) a) r = JsVal.undef
  rw [show objGetD (assocSet [] a (setPath JsVal.undef p v)) a = setPath JsVal.undef p v from by
    simp [objGetD, assocSet, assocGet]]
  rw [hih, getPath_undef]

theorem fresh_ne_case (a b : String) (p r : List String) (v : JsVal) (hab : ¬a = b) :
    getPath (JsVal.obj (assocSet [] a (setPath JsVal.undef p v))) (b :: r) = JsVal.undef := by
  show getPath (objGetD (assocSet [] a (setPath JsVal.undef p v)) b) r = JsVal.undef
  rw [show objGetD (assocSet [] a (setPath JsVal.undef p v)) b = JsVal.undef from by
    simp [objGetD, assocSet, assocGet, hab]]
  exact getPath_undef r

theorem getPath_setPath_apart (p r : List String) (s v : JsVal) (h : PathsApart p r) :
    getPath (setPath s p v) r = getPath s r := by
  induction p generalizing r s with
  | nil => exact absurd h.1 (by simp [startsWithKeys])
  | cons a p ih =>
    cases r with
    | nil => exact absurd h.2 (by simp [startsWithKeys])
    | cons b r =>
      by_cases hab : a = b
      · subst hab
        have h2 : PathsApart p r := by
          obtain ⟨h1, h2⟩ := h
          simp only [startsWithKeys, beq_self_eq_true, Bool.true_and] at h1 h2
          exact ⟨h1, h2⟩
        cases s with
        | obj fs =>
          show getPath (objGetD (assocSet fs a (setPath (objGetD fs a) p v)) a) r
              = getPath (objGetD fs a) r
          rw [show objGetD (assocSet fs a (setPath (objGetD fs a) p v)) a
              = setPath (objGetD fs a) p v from by
            simp [objGetD, assocGet_assocSet_self]]
          exact ih r (objGetD fs a) h2
        | undef => exact fresh_same_case a p r v (ih r JsVal.undef h2)
        | null => exact fresh_same_case a p r v (ih r JsVal.undef h2)
        | bool _ => exact fresh_same_case a p r v (ih r JsVal.undef h2)
        | num _ => exact fresh_same_case a p r v (ih r JsVal.undef h2)
        | str _ => exact fresh_same_case a p r v (ih r JsVal.undef h2)
      · cases s with
        | obj fs =>
          show getPath (objGetD (assocSet fs a (setPath (objGetD fs a) p v)) b) r
              = getPath (objGetD fs b) r
          rw [show objGetD (assocSet fs a (setPath (objGetD fs a) p v)) b = objGetD fs b from by
            simp [objGetD, assocGet_assocSet_ne fs a b _ hab]]
        | undef => exact fresh_ne_case a b p r v hab
        | null => exact fresh_ne_case a b p r v hab
        | bool _ => exact fresh_ne_case a b p r v hab
        | num _ => exact fresh_ne_case a b p r v hab
        | str _ => exact fresh_ne_case a b p r v hab

-- =========================================================================
-- Lemmas: path splitting
-- =========================================================================

theorem splitOnChar_ne_nil (c : Char) (l : List Char) : splitOnChar c l ≠ [] := by
  cases l with
  | nil => simp [splitOnChar]
  | cons x xs =>
    simp only [splitOnChar]
    cases h : splitOnChar c xs with
    | nil => simp
    | cons y ys => by_cases hx : x = c <;> simp [hx]

theorem splitOnChar_append_sep (c : Char) (a b : List Char) :
    splitOnChar c (a ++ c :: b) = splitOnChar c a ++ splitOnChar c b := by
  induction a with
  | nil =>
    simp only [List.nil_append, splitOnChar]
    cases h : splitOnChar c b with
    | nil => exact absurd h (splitOnChar_ne_nil c b)
    | cons y ys => simp
  | cons x xs ih =>
    simp only [List.cons_append, splitOnChar, List.append_eq]
    rw [ih]
    cases h : splitOnChar c xs with
    | nil => exact absurd h (splitOnChar_ne_nil c xs)
    | cons y ys => by_cases hx : x = c <;> simp [hx, h]

theorem splitOnChar_not_mem (c : Char) (l : List Char) (h : c ∉ l) :
    splitOnChar c l = [l] := by
  induction l with
  | nil => rfl
  | cons x xs ih =>
    have hx : ¬(x = c) := fun he => h (he ▸ List.mem_cons_self x xs)
    have hxs : c ∉ xs := fun hm => h (List.mem_cons_of_mem x hm)
    simp [splitOnChar, ih hxs, hx]

theorem toList_append (p q : String) : (p ++ q).toList = p.toList ++ q.toList :=
  String.data_append p q

theorem splitPath_append (p q : String) :
    splitPath (p ++ "." ++ q) = splitPath p ++ splitPath q := by
  unfold splitPath
  have h : (p ++ "." ++ q).toList = p.toList ++ '.' :: q.toList := by
    rw [toList_append, toList_append]; simp
  rw [h, splitOnChar_append_sep, List.map_append]

theorem splitPath_append_key (p k : String) (h : '.' ∉ k.toList) :
    splitPath (p ++ "." ++ k) = splitPath p ++ [k] := by
  rw [splitPath_append]
  show _ ++ (splitOnChar '.' k.toList).map String.mk = _
  rw [splitOnChar_not_mem '.' k.toList h]
  simp [mk_toList]

theorem splitFirstChar_none_iff (c : Char) (l : List Char) :
    splitFirstChar c l = none ↔ c ∉ l := by
  induction l with
  | nil => simp [splitFirstChar]
  | cons x xs ih =>
    by_cases hx : x = c
    · subst hx; simp [splitFirstChar]
    · simp only [splitFirstChar, if_neg hx]
      cases h : splitFirstChar c xs with
      | none =>
        simp only [List.mem_cons]
        constructor
        · intro _ hm
          rcases hm with hm | hm
          · exact hx hm.symm
          · exact (ih.mp h) hm
        · intro _; trivial
      | some p =>
        have hmem : c ∈ xs := by
          by_contra hn
          rw [ih.mpr hn] at h
          cases h
        simp [List.mem_cons, hmem]

theorem splitFirstChar_append (c : Char) (a b : List Char) (h : c ∉ a) :
    splitFirstChar c (a ++ c :: b) = some (a, b) := by
  induction a with
  | nil => simp [splitFirstChar]
  | cons x xs ih =>
    have hx : ¬(x = c) := fun he => h (he ▸ List.mem_cons_self x xs)
    have hxs : c ∉ xs := fun hm => h (List.mem_cons_of_mem x hm)
    simp [splitFirstChar, hx, ih hxs]

-- =========================================================================
-- Claim C7: the evaluator's total case analysis
-- =========================================================================

theorem evalExpr_num_lit (e : String) (n : Int) (cur : JsVal) (h : numLit e = some n) :
    evalExpr (some e) cur = JsVal.num n := by
  have h1 : ¬(e = "increment") := by rintro rfl; exact Option.noConfusion h
  have h2 : ¬(e = "decrement") := by rintro rfl; exact Option.noConfusion h
  have h3 : ¬(e = "toggle") := by rintro rfl; exact Option.noConfusion h
  have h4 : ¬(e = "true") := by rintro rfl; exact Option.noConfusion h
  have h5 : ¬(e = "false") := by rintro rfl; exact Option.noConfusion h
  have h6 : ¬(e = "null") := by rintro rfl; exact Option.noConfusion h
  simp only [evalExpr, if_neg h1, if_neg h2, if_neg h3, if_neg h4, if_neg h5, if_neg h6, h]

theorem evalExpr_json_lit (e : String) (v cur : JsVal) (hn : numLit e = none)
    (hj : jsonParse e = some v) : evalExpr (some e) cur = v := by
  by_cases h1 : e = "increment"
  · subst h1; exact Option.noConfusion hj
  by_cases h2 : e = "decrement"
  · subst h2; exact Option.noConfusion hj
  by_cases h3 : e = "toggle"
  · subst h3; exact Option.noConfusion hj
  by_cases h4 : e = "true"
  · subst h4
    have hv : JsVal.bool true = v := Option.some.inj hj
    rw [← hv]; rfl
  by_cases h5 : e = "false"
  · subst h5
    have hv : JsVal.bool false = v := Option.some.inj hj
    rw [← hv]; rfl
  by_cases h6 : e = "null"
  · subst h6
    have hv : JsVal.null = v := Option.some.inj hj
    rw [← hv]; rfl
  simp only [evalExpr, if_neg h1, if_neg h2, if_neg h3, if_neg h4, if_neg h5, if_neg h6, hn, hj]

theorem evalExpr_raw_str (e : String) (cur : JsVal) (hn : numLit e = none)
    (hj : jsonParse e = none) (h1 : e ≠ "increment") (h2 : e ≠ "decrement")
    (h3 : e ≠ "toggle") : evalExpr (some e) cur = JsVal.str e := by
  have h4 : ¬(e = "true") := by rintro rfl; exact Option.noConfusion hj
  have h5 : ¬(e = "false") := by rintro rfl; exact Option.noConfusion hj
  have h6 : ¬(e = "null") := by rintro rfl; exact Option.noConfusion hj
  simp only [evalExpr, if_neg h1, if_neg h2, if_neg h3, if_neg h4, if_neg h5, if_neg h6, hn, hj]

/-- Claim C7: `evalExpr` is the spec's total case analysis — absent
expression returns the current value; increment/decrement add or subtract 1
from the numeric coercion of the current value (non-numeric coerces to 0);
toggle negates truthiness; the three literal keywords return their literal;
otherwise a numeric literal wins, then a JSON literal, then the raw string —
together with the spec's eight concrete evaluation examples. -/
theorem C7_evalExpr_cases :
    (∀ cur : JsVal, evalExpr none cur = cur) ∧
    (∀ cur : JsVal, evalExpr (some "increment") cur = JsVal.num (jsToNumOr0 cur + 1)) ∧
    (∀ cur : JsVal, evalExpr (some "decrement") cur = JsVal.num (jsToNumOr0 cur - 1)) ∧
    (∀ cur : JsVal, evalExpr (some "toggle") cur = JsVal.bool (!jsTruthy cur)) ∧
    (∀ cur : JsVal, evalExpr (some "true") cur = JsVal.bool true) ∧
    (∀ cur : JsVal, evalExpr (some "false") cur = JsVal.bool false) ∧
    (∀ cur : JsVal, evalExpr (some "null") cur = JsVal.null) ∧
    (∀ (e : String) (n : Int) (cur : JsVal), numLit e = some n →
      evalExpr (some e) cur = JsVal.num n) ∧
    (∀ (e : String) (v cur : JsVal), numLit e = none → jsonParse e = some v →
      evalExpr (some e) cur = v) ∧
    (∀ (e : String) (cur : JsVal), numLit e = none → jsonParse e = none →
      e ≠ "increment" → e ≠ "decrement" → e ≠ "toggle" →
      evalExpr (some e) cur = JsVal.str e) ∧
    (evalExpr (some "increment") (JsVal.num 5) = JsVal.num 6 ∧
     evalExpr (some "increment") JsVal.undef = JsVal.num 1 ∧
     evalExpr (some "decrement") (JsVal.num 0) = JsVal.num (-1) ∧
     evalExpr (some "toggle") (JsVal.bool true) = JsVal.bool false ∧
     evalExpr (some "42") (JsVal.num 0) = JsVal.num 42 ∧
     evalExpr (some "true") (JsVal.num 0) = JsVal.bool true ∧
     evalExpr none (JsVal.num 7) = JsVal.num 7 ∧
     evalExpr (some "hello") (JsVal.str "") = JsVal.str "hello") :=
  ⟨fun _ => rfl, fun _ => rfl, fun _ => rfl, fun _ => rfl, fun _ => rfl, fun _ => rfl,
   fun _ => rfl, evalExpr_num_lit, evalExpr_json_lit, evalExpr_raw_str,
   rfl, rfl, rfl, rfl, rfl, rfl, rfl, rfl⟩

/-- Witness for C7: the hypothesis-bearing cases applied at concrete inputs
(a numeric literal, a JSON string literal, a plain raw string). -/
theorem C7_witness :
    evalExpr (some "  12 ") JsVal.null = JsVal.num 12 ∧
    evalExpr (some "\"hi\"") JsVal.null = JsVal.str "hi" ∧
    evalExpr (some "zap") JsVal.null = JsVal.str "zap" :=
  ⟨C7_evalExpr_cases.2.2.2.2.2.2.2.1 "  12 " 12 JsVal.null rfl,
   C7_evalExpr_cases.2.2.2.2.2.2.2.2.1 "\"hi\"" (JsVal.str "hi") JsVal.null rfl rfl,
   C7_evalExpr_cases.2.2.2.2.2.2.2.2.2.1 "zap" JsVal.null rfl rfl
     (by decide) (by decide) (by decide)⟩

-- =========================================================================
-- Claim C10: trailing-separator actions
-- =========================================================================

theorem parseSetExpr_trailing (s : String) (h : ':' ∉ s.toList) :
    parseSetExpr (s ++ ":") = ⟨jsTrim s, some ""⟩ := by
  unfold parseSetExpr
  have hl : (s ++ ":").toList = s.toList ++ ':' :: [] := by
    rw [toList_append]; rfl
  rw [hl, splitFirstChar_append ':' s.toList [] h]
  rfl

/-- Counterexample to claim C10 as stated: `"a:b:"` ends in the separator,
yet its parsed expression is `"b:"`, not the empty string (the split is at
the FIRST separator, so only the text after the first colon matters). -/
theorem C10_counterexample :
    "a:b:".toList.getLast? = some ':' ∧
    (parseSetExpr "a:b:").expr = some "b:" ∧
    (parseSetExpr "a:b:").expr ≠ some "" :=
  ⟨rfl, rfl, by decide⟩

/-- Claim C10 (amended): an absent expression arises exactly when the raw
action string has no separator; when the only text after the FIRST separator
is empty (e.g. `"count:"`), the expression is the empty string, not absent,
`evalExpr` of the empty-string expression returns the empty string, and such
an action overwrites the store value at the path with `""` instead of leaving
the current value unchanged. -/
theorem C10_trailing_sep :
    (∀ raw : String, (parseSetExpr raw).expr = none ↔ ':' ∉ raw.toList) ∧
    (∀ s : String, ':' ∉ s.toList → parseSetExpr (s ++ ":") = ⟨jsTrim s, some ""⟩) ∧
    (∀ cur : JsVal, evalExpr (some "") cur = JsVal.str "") ∧
    (∀ (now : Nat) (st : Store) (s : String), ':' ∉ s.toList →
      executeSet now (s ++ ":") st = st.set (jsTrim s) (JsVal.str "")) := by
  refine ⟨?_, parseSetExpr_trailing, fun _ => rfl, ?_⟩
  · intro raw
    unfold parseSetExpr
    cases h : splitFirstChar ':' raw.toList with
    | none => simpa using (splitFirstChar_none_iff ':' raw.toList).mp h
    | some p =>
      simp only []
      constructor
      · intro hc; cases hc
      · intro hx
        rw [(splitFirstChar_none_iff ':' raw.toList).mpr hx] at h
        cases h
  · intro now st s h
    unfold executeSet
    rw [parseSetExpr_trailing s h]
    rfl

/-- Witness for C10: the trailing-separator action `"count:"` parses to the
empty-string expression and overwrites the stored value with `""`. -/
theorem C10_witness :
    executeSet 0 ("count" ++ ":") ⟨JsVal.obj [("count", JsVal.num 9)], [], []⟩
      = Store.set ⟨JsVal.obj [("count", JsVal.num 9)], [], []⟩ (jsTrim "count") (JsVal.str "") :=
  C10_trailing_sep.2.2.2 0 ⟨JsVal.obj [("count", JsVal.num 9)], [], []⟩ "count" (by decide)

-- =========================================================================
-- Claim C5: delete rebuilds the parent excluding the key
-- =========================================================================

theorem foldBuild (g : String → JsVal) (key : String) :
    ∀ (fields acc : List (String × JsVal)),
    (fields.map (fun kv => kv.1)).Nodup →
    (∀ kv ∈ fields, g kv.1 = kv.2) →
    (∀ kv ∈ fields, assocGet acc kv.1 = none) →
    (fields.map (fun kv => kv.1)).foldl
      (fun a k => if k = key then a else assocSet a k (g k)) acc
      = acc ++ fields.filter (fun kv => kv.1 ≠ key) := by
  intro fields
  induction fields with
  | nil => intro acc _ _ _; simp
  | cons kv rest ih =>
    intro acc hnd hg hacc
    obtain ⟨k0, v0⟩ := kv
    simp only [List.map_cons, List.foldl_cons]
    by_cases hk : k0 = key
    · subst hk
      rw [if_pos rfl]
      rw [ih acc (List.nodup_cons.mp hnd).2
        (fun kv hm => hg kv (List.mem_cons_of_mem _ hm))
        (fun kv hm => hacc kv (List.mem_cons_of_mem _ hm))]
      simp
    · rw [if_neg hk]
      have hgv : g k0 = v0 := hg (k0, v0) (List.mem_cons_self _ _)
      have hgetnone : assocGet acc k0 = none := hacc (k0, v0) (List.mem_cons_self _ _)
      rw [hgv, assocSet_of_not_mem acc k0 v0 hgetnone]
      rw [ih (acc ++ [(k0, v0)]) (List.nodup_cons.mp hnd).2
        (fun kv hm => hg kv (List.mem_cons_of_mem _ hm))
        (fun kv hm => by
          rw [assocGet_eq_none_append _ _ _ (hacc kv (List.mem_cons_of_mem _ hm))]
          have hne : ¬(k0 = kv.1) := fun he =>
            (List.nodup_cons.mp hnd).1 (he ▸ List.mem_map_of_mem (fun p => p.1) hm)
          simp [assocGet, hne])]
      simp [hk]

theorem store_get_set_self (s : Store) (p : String) (v : JsVal) :
    (s.set p v).get p = v :=
  getPath_setPath_self (splitPath p) s.root v

/-- Claim C5: for an action whose parsed expression is `delete` and whose
path contains a separator, when the parent path holds a mapping, `executeSet`
writes back to the parent path exactly that mapping minus the deleted key,
all other keys keeping their original values. -/
theorem C5_delete_exact (now : Nat) (raw : String) (store : Store)
    (path : String) (pcs kcs : List Char) (fields : List (String × JsVal))
    (hparse : parseSetExpr raw = ⟨path, some "delete"⟩)
    (hsplit : splitLastChar '.' path.toList = some (pcs, kcs))
    (hparent : store.get (String.mk pcs) = JsVal.obj fields)
    (hnd : (fields.map (fun kv => kv.1)).Nodup) :
    executeSet now raw store
      = store.set (String.mk pcs)
          (JsVal.obj (fields.filter (fun kv => kv.1 ≠ String.mk kcs))) ∧
    (executeSet now raw store).get (String.mk pcs)
      = JsVal.obj (fields.filter (fun kv => kv.1 ≠ String.mk kcs)) := by
  have hexe : executeSet now raw store
      = store.set (String.mk pcs)
          (JsVal.obj (fields.filter (fun kv => kv.1 ≠ String.mk kcs))) := by
    unfold executeSet
    rw [hparse]
    simp only [if_pos rfl, hsplit]
    rw [show jsOr (store.get (String.mk pcs)) (JsVal.obj []) = JsVal.obj fields from by
      rw [hparent]; rfl]
    have hkeys : jsKeys (JsVal.obj fields) = fields.map (fun kv => kv.1) := rfl
    rw [hkeys]
    rw [show (fun (a : List (String × JsVal)) (k : String) =>
          if k = String.mk kcs then a else assocSet a k (jsGet (JsVal.obj fields) k))
        = (fun a k => if k = String.mk kcs then a else assocSet a k (objGetD fields k)) from by
      funext a k; rw [jsGet_obj]]
    rw [foldBuild (fun k => objGetD fields k) (String.mk kcs) fields [] hnd
      (fun kv hm => by
        show objGetD fields kv.1 = kv.2
        rw [objGetD, assocGet_of_mem_nodup fields kv hnd hm]; rfl)
      (fun kv _ => rfl)]
    rfl
  exact ⟨hexe, by rw [hexe]; exact store_get_set_self _ _ _⟩

/-- Witness for C5: deleting `"t1"` from a 3-key parent mapping leaves
exactly the other two keys with their original values. -/
theorem C5_witness :
    (executeSet 0 "todos.t1:delete"
        ⟨JsVal.obj [("todos", JsVal.obj
          [("t1", JsVal.num 1), ("t2", JsVal.num 2), ("t3", JsVal.num 3)])], [], []⟩).get "todos"
      = JsVal.obj [("t2", JsVal.num 2), ("t3", JsVal.num 3)] :=
  (C5_delete_exact 0 "todos.t1:delete"
    ⟨JsVal.obj [("todos", JsVal.obj
      [("t1", JsVal.num 1), ("t2", JsVal.num 2), ("t3", JsVal.num 3)])], [], []⟩
    "todos.t1" "todos".toList "t1".toList
    [("t1", JsVal.num 1), ("t2", JsVal.num 2), ("t3", JsVal.num 3)]
    rfl rfl rfl (by decide)).2.trans rfl

-- =========================================================================
-- Claim C6: no-op behaviour of malformed delete/push actions
-- =========================================================================

/-- Counterexample to claim C6 as stated: a delete whose parent path is
absent is NOT a no-op — on an empty store, `"todos.t1:delete"` performs one
write (an empty mapping onto the parent path) and triggers one notification
pass. -/
theorem C6_counterexample :
    (executeSet 0 "todos.t1:delete" ⟨JsVal.obj [], [], []⟩).writes
      = [("todos", JsVal.obj [])] ∧
    (⟨JsVal.obj [], [], []⟩ : Store).writes = [] ∧
    (executeSet 0 "todos.t1:delete" ⟨JsVal.obj [], [], []⟩).obs.length = 1 ∧
    (executeSet 0 "todos.t1:delete" ⟨JsVal.obj [], [], []⟩).root
      = JsVal.obj [("todos", JsVal.obj [])] :=
  ⟨rfl, rfl, rfl, rfl⟩

/-- Claim C6 (amended): a delete whose path has no separator, a push with
absent source, and a push whose source value is absent or not a composite
value are all complete no-ops (the store is returned unchanged — no write, no
notification); but a delete whose parent path is absent from the store is NOT
a no-op: it writes an empty mapping to the parent path, triggering a
notification. -/
theorem C6_noop_cases :
    (∀ (now : Nat) (raw path : String) (store : Store),
      parseSetExpr raw = ⟨path, some "delete"⟩ →
      splitLastChar '.' path.toList = none →
      executeSet now raw store = store) ∧
    (∀ (now : Nat) (raw path : String) (store : Store),
      parseSetExpr raw = ⟨path, some "push"⟩ →
      executeSet now raw store = store) ∧
    (∀ (now : Nat) (raw path e srcStr : String) (store : Store),
      parseSetExpr raw = ⟨path, some e⟩ →
      parsePush (some e) = some (some srcStr) →
      (jsTruthy (store.get srcStr) = false ∨ jsTypeof (store.get srcStr) ≠ "object") →
      executeSet now raw store = store) ∧
    (∀ (now : Nat) (raw path : String) (pcs kcs : List Char) (store : Store),
      parseSetExpr raw = ⟨path, some "delete"⟩ →
      splitLastChar '.' path.toList = some (pcs, kcs) →
      store.get (String.mk pcs) = JsVal.undef →
      executeSet now raw store = store.set (String.mk pcs) (JsVal.obj [])) := by
  refine ⟨?_, ?_, ?_, ?_⟩
  · intro now raw path store hparse hsplit
    unfold executeSet
    rw [hparse]
    simp only [hsplit]
    simp
  · intro now raw path store hparse
    unfold executeSet
    rw [hparse]
    rfl
  · intro now raw path e srcStr store hparse hpush hbad
    have hdel : ¬((some e : Option String) = some "delete") := by
      intro he
      rw [Option.some.inj he] at hpush
      exact Option.noConfusion hpush
    unfold executeSet
    rw [hparse]
    simp only [if_neg hdel, hpush]
    by_cases hsz : srcStr = ""
    · rw [if_pos hsz]
    · rw [if_neg hsz]
      have hcond : (!jsTruthy (store.get srcStr) || jsTypeof (store.get srcStr) != "object") = true := by
        rcases hbad with hb | hb
        · simp [hb]
        · simp [hb]
      rw [if_pos hcond]
  · intro now raw path pcs kcs store hparse hsplit habsent
    unfold executeSet
    rw [hparse]
    simp only [if_pos rfl, hsplit]
    rw [show jsOr (store.get (String.mk pcs)) (JsVal.obj []) = JsVal.obj [] from by
      rw [habsent]; rfl]
    rfl

/-- Witness for C6: a push from an absent source value is a no-op on an
empty store, and a bare push (absent source path) is a no-op. -/
theorem C6_witness :
    executeSet 1 "todos:push(draft)" ⟨JsVal.obj [], [], []⟩ = ⟨JsVal.obj [], [], []⟩ ∧
    executeSet 2 "todos:push" ⟨JsVal.obj [], [], []⟩ = ⟨JsVal.obj [], [], []⟩ :=
  ⟨C6_noop_cases.2.2.1 1 "todos:push(draft)" "todos" "push(draft)" "draft"
    ⟨JsVal.obj [], [], []⟩ rfl rfl (Or.inl rfl),
   C6_noop_cases.2.1 2 "todos:push" "todos" ⟨JsVal.obj [], [], []⟩ rfl⟩

-- =========================================================================
-- Claim C4: exact, frame-preserving revocation
-- =========================================================================

theorem cleanup_keep_filter (container : Elem) (subs : List Binding) :
    (cleanupWithin container subs).1
      = subs.filter (fun b => !container.containsNode b.node) := by
  induction subs with
  | nil => rfl
  | cons b rest ih =>
    by_cases h : container.containsNode b.node
    · simp [cleanupWithin, h, ih]
    · simp [cleanupWithin, h, ih]

theorem cleanup_removed_filter (container : Elem) (subs : List Binding) :
    (cleanupWithin container subs).2
      = (subs.filter (fun b => container.containsNode b.node)).reverse := by
  induction subs with
  | nil => rfl
  | cons b rest ih =>
    by_cases h : container.containsNode b.node
    · simp [cleanupWithin, h, ih]
    · simp [cleanupWithin, h, ih]

/-- Claim C4: `cleanupWithin` (the reverse-index splice loop, safe against
in-place deletion) keeps exactly the registry entries whose node is outside
the container and revokes exactly those whose node is the container or a
descendant — the revoked handles are invoked in reverse recording order. -/
theorem C4_cleanup_exact :
    ∀ (container : Elem) (subs : List Binding),
    (cleanupWithin container subs).1
      = subs.filter (fun b => !container.containsNode b.node) ∧
    (cleanupWithin container subs).2
      = (subs.filter (fun b => container.containsNode b.node)).reverse :=
  fun container subs =>
    ⟨cleanup_keep_filter container subs, cleanup_removed_filter container subs⟩

-- =========================================================================
-- Claim C3: scanning is idempotent per node
-- =========================================================================

theorem scanNode_marks_mono (ss : ScanState) (n : DNode) (i : Nat) (h : i ∈ ss.marks) :
    i ∈ (scanNode ss n).marks := by
  unfold scanNode
  by_cases hm : n.id ∈ ss.marks
  · simp [hm, h]
  · simp [hm, List.mem_cons, h]

theorem scanNode_mark_self (ss : ScanState) (n : DNode) : n.id ∈ (scanNode ss n).marks := by
  unfold scanNode
  by_cases hm : n.id ∈ ss.marks
  · simp [hm]
  · simp [hm, List.mem_cons]

theorem scanFold_marks_mono (l : List DNode) (ss : ScanState) (i : Nat) (h : i ∈ ss.marks) :
    i ∈ (l.foldl scanNode ss).marks := by
  induction l generalizing ss with
  | nil => exact h
  | cons n rest ih => exact ih (scanNode ss n) (scanNode_marks_mono ss n i h)

theorem scanFold_marks_all (l : List DNode) (ss : ScanState) :
    ∀ n ∈ l, n.id ∈ (l.foldl scanNode ss).marks := by
  induction l generalizing ss with
  | nil => intro n hn; cases hn
  | cons m rest ih =>
    intro n hn
    rcases List.mem_cons.mp hn with rfl | hn2
    · exact scanFold_marks_mono rest (scanNode ss n) n.id (scanNode_mark_self ss n)
    · exact ih (scanNode ss m) n hn2

theorem scanNode_of_marked (ss : ScanState) (n : DNode) (h : n.id ∈ ss.marks) :
    scanNode ss n = ss := by
  unfold scanNode
  rw [if_pos h]

theorem scanFold_of_marked (l : List DNode) (ss : ScanState)
    (h : ∀ n ∈ l, n.id ∈ ss.marks) : l.foldl scanNode ss = ss := by
  induction l with
  | nil => rfl
  | cons n rest ih =>
    simp only [List.foldl_cons, scanNode_of_marked ss n (h n (List.mem_cons_self _ _))]
    exact ih (fun m hm => h m (List.mem_cons_of_mem _ hm))

/-- Claim C3: scanning is idempotent per node — a second scan over the same
subtree (and any scan over a subtree of already-visited nodes, as happens
through nested or recursive scans) changes nothing: no new bindings, no new
subscriptions, no new marks. -/
theorem C3_scan_idempotent :
    (∀ (ss : ScanState) (el : Elem), scanBindings (scanBindings ss el) el = scanBindings ss el) ∧
    (∀ (ss : ScanState) (el : Elem), (∀ n ∈ el.nodes, n.id ∈ ss.marks) →
      scanBindings ss el = ss) := by
  constructor
  · intro ss el
    exact scanFold_of_marked el.nodes (scanBindings ss el)
      (fun n hn => scanFold_marks_all el.nodes ss n hn)
  · intro ss el h
    exact scanFold_of_marked el.nodes ss h

/-- Witness for C3: a scan over an element whose nodes are all marked is a
no-op. -/
theorem C3_witness :
    scanBindings ⟨[7], []⟩ ⟨[⟨7, [("bind-text", "a")]⟩]⟩ = ⟨[7], []⟩ :=
  C3_scan_idempotent.2 ⟨[7], []⟩ ⟨[⟨7, [("bind-text", "a")]⟩]⟩ (by simp)

-- =========================================================================
-- Claim C9: uniqueness of generated push keys
-- =========================================================================

theorem toDigitsCore_eq_decRepr (fuel : Nat) :
    ∀ (n : Nat) (ds : List Char), n < fuel →
    Nat.toDigitsCore 10 fuel n ds = decRepr n ++ ds := by
  induction fuel with
  | zero => intro n ds h; omega
  | succ fuel ih =>
    intro n ds h
    by_cases h10 : n < 10
    · have hdiv : n / 10 = 0 := Nat.div_eq_of_lt h10
      have hmod : n % 10 = n := Nat.mod_eq_of_lt h10
      simp [Nat.toDigitsCore, hdiv, hmod, decRepr, h10]
    · have hdiv : ¬(n / 10 = 0) := by
        intro hz
        have := Nat.div_add_mod n 10
        omega
      have hlt : n / 10 < fuel := by
        have h1 : n / 10 < n := Nat.div_lt_self (by omega) (by omega)
        omega
      simp only [Nat.toDigitsCore, if_neg hdiv]
      rw [ih (n / 10) (Nat.digitChar (n % 10) :: ds) hlt]
      conv_rhs => rw [decRepr]
      simp [h10]

theorem repr_toList_eq_decRepr (n : Nat) : (Nat.repr n).toList = decRepr n := by
  show (Nat.toDigits 10 n).asString.toList = decRepr n
  rw [Nat.toDigits, toDigitsCore_eq_decRepr (n + 1) n [] (Nat.lt_succ_self n)]
  simp [List.asString]

theorem digitVal_digitChar : ∀ n : Nat, n < 10 → digitVal (Nat.digitChar n) = n := by
  decide

theorem digitChar_isDigit : ∀ n : Nat, n < 10 → (Nat.digitChar n).isDigit = true := by
  decide

theorem decValChars_append (l : List Char) (c : Char) :
    decValChars (l ++ [c]) = 10 * decValChars l + digitVal c := by
  simp [decValChars, List.foldl_append]

theorem decValChars_decRepr (n : Nat) : decValChars (decRepr n) = n := by
  induction n using Nat.strong_induction_on with
  | _ n ih =>
    by_cases h : n < 10
    · rw [decRepr, dif_pos h]
      show 10 * 0 + digitVal (Nat.digitChar n) = n
      rw [digitVal_digitChar n h]
      omega
    · rw [decRepr, dif_neg h, decValChars_append]
      rw [ih (n / 10) (Nat.div_lt_self (by omega) (by omega))]
      rw [digitVal_digitChar (n % 10) (Nat.mod_lt n (by omega))]
      omega

theorem decRepr_inj (m n : Nat) (h : decRepr m = decRepr n) : m = n := by
  have hm := decValChars_decRepr m
  rw [h, decValChars_decRepr] at hm
  omega

theorem repr_inj (m n : Nat) (h : Nat.repr m = Nat.repr n) : m = n := by
  apply decRepr_inj
  rw [← repr_toList_eq_decRepr, ← repr_toList_eq_decRepr, h]

theorem decRepr_all_digits (n : Nat) : ∀ c ∈ decRepr n, c.isDigit = true := by
  induction n using Nat.strong_induction_on with
  | _ n ih =>
    intro c hc
    by_cases h : n < 10
    · rw [decRepr, dif_pos h] at hc
      rcases List.mem_singleton.mp hc with rfl
      exact digitChar_isDigit n h
    · rw [decRepr, dif_neg h] at hc
      rcases List.mem_append.mp hc with hc1 | hc1
      · exact ih (n / 10) (Nat.div_lt_self (by omega) (by omega)) c hc1
      · rcases List.mem_singleton.mp hc1 with rfl
        exact digitChar_isDigit (n % 10) (Nat.mod_lt n (by omega))

theorem genKey_toList (now : Nat) : (genKey now).toList = 't' :: '_' :: decRepr now := by
  show ("t_" ++ Nat.repr now).toList = _
  rw [toList_append, repr_toList_eq_decRepr]
  rfl

theorem genKey_no_dot (now : Nat) : '.' ∉ (genKey now).toList := by
  rw [genKey_toList]
  intro hmem
  rcases List.mem_cons.mp hmem with h | h
  · exact absurd h (by decide)
  rcases List.mem_cons.mp h with h2 | h2
  · exact absurd h2 (by decide)
  have hd := decRepr_all_digits now '.' h2
  exact absurd hd (by decide)

theorem genKey_inj (m n : Nat) (h : genKey m = genKey n) : m = n := by
  have hl : (genKey m).toList = (genKey n).toList := by rw [h]
  rw [genKey_toList, genKey_toList] at hl
  injection hl with h1 h2
  injection h2 with h3 h4
  exact decRepr_inj m n h4

/-- Counterexample to claim C9 as stated: the generated key depends only on
the timestamp (`"t_" + Date.now()`), so two distinct push executions in the
same millisecond generate the SAME key and the later push overwrites the
earlier entry — after two same-instant pushes of `draft = {text:"X"}` into
`todos`, the collection holds exactly one entry, holding the second (reset)
clone. -/
theorem C9_counterexample :
    genKey 5 = "t_5" ∧
    (executeSet 5 "todos:push(draft)"
        ⟨JsVal.obj [("draft", JsVal.obj [("text", JsVal.str "X")]),
                    ("todos", JsVal.obj [])], [], []⟩).get "todos"
      = JsVal.obj [("t_5", JsVal.obj [("text", JsVal.str "X")])] ∧
    (executeSet 5 "todos:push(draft)"
      (executeSet 5 "todos:push(draft)"
        ⟨JsVal.obj [("draft", JsVal.obj [("text", JsVal.str "X")]),
                    ("todos", JsVal.obj [])], [], []⟩)).get "todos"
      = JsVal.obj [("t_5", JsVal.obj [("text", JsVal.str "")])] :=
  ⟨rfl, rfl, rfl⟩

/-- Claim C9 (amended): the pushed entry's key is `"t_"` followed by the
decimal timestamp, so keys generated at distinct instants are distinct (the
key generator is injective in the timestamp); but two pushes at the same
instant share one key, and the later push overwrites the earlier entry. -/
theorem C9_genKey_inj :
    ∀ m n : Nat, genKey m = genKey n ↔ m = n :=
  fun m n => ⟨genKey_inj m n, fun h => h ▸ rfl⟩

-- =========================================================================
-- Claim C1: push atomicity
-- =========================================================================

theorem map_keys_entries {β : Type} (fields : List (String × JsVal))
    (hnd : (fields.map (fun kv => kv.1)).Nodup) (F : String → JsVal → β) :
    (fields.map (fun kv => kv.1)).map (fun k => F k (objGetD fields k))
      = fields.map (fun kv => F kv.1 kv.2) := by
  induction fields with
  | nil => rfl
  | cons kv rest ih =>
    obtain ⟨k0, v0⟩ := kv
    simp only [List.map_cons]
    have h1 : objGetD ((k0, v0) :: rest) k0 = v0 := by simp [objGetD, assocGet]
    rw [h1]
    congr 1
    have hlk : ∀ y ∈ rest.map (fun kv => kv.1),
        (fun k => F k (objGetD ((k0, v0) :: rest) k)) y = (fun k => F k (objGetD rest k)) y := by
      intro y hy
      have hne : ¬(k0 = y) := fun he => (List.nodup_cons.mp hnd).1 (he ▸ hy)
      simp [objGetD, assocGet, hne]
    rw [List.map_congr_left hlk]
    exact ih (List.nodup_cons.mp hnd).2

theorem foldl_set_writes (sp : String) (g : String → JsVal) (ks : List String) (st : Store) :
    (ks.foldl (fun acc k => acc.set (sp ++ "." ++ k) (g k)) st).writes
      = st.writes ++ ks.map (fun k => (sp ++ "." ++ k, g k)) := by
  induction ks generalizing st with
  | nil => simp
  | cons k ks ih =>
    simp only [List.foldl_cons]
    rw [ih]
    simp [Store.set]

theorem foldl_set_root (sp : String) (g : String → JsVal) (ks : List String) (st : Store) :
    (ks.foldl (fun acc k => acc.set (sp ++ "." ++ k) (g k)) st).root
      = ks.foldl (fun rt k => setPath rt (splitPath (sp ++ "." ++ k)) (g k)) st.root := by
  induction ks generalizing st with
  | nil => rfl
  | cons k ks ih =>
    simp only [List.foldl_cons]
    rw [ih]
    rfl

theorem foldl_zero_frame (sp : String) (g : String → JsVal) (ks : List String)
    (r : List String) (hap : ∀ k ∈ ks, PathsApart (splitPath (sp ++ "." ++ k)) r)
    (root : JsVal) :
    getPath (ks.foldl (fun rt k => setPath rt (splitPath (sp ++ "." ++ k)) (g k)) root) r
      = getPath root r := by
  induction ks generalizing root with
  | nil => rfl
  | cons k ks ih =>
    simp only [List.foldl_cons]
    rw [ih (fun x hx => hap x (List.mem_cons_of_mem _ hx))]
    exact getPath_setPath_apart _ r root (g k) (hap k (List.mem_cons_self _ _))

theorem foldl_zero_lookup (sp : String) (g : String → JsVal) (ks : List String)
    (hnd : ks.Nodup) (hdots : ∀ x ∈ ks, '.' ∉ x.toList) (k : String) (hk : k ∈ ks)
    (root : JsVal) :
    getPath (ks.foldl (fun rt x => setPath rt (splitPath (sp ++ "." ++ x)) (g x)) root)
      (splitPath sp ++ [k]) = g k := by
  induction ks generalizing root with
  | nil => cases hk
  | cons x ks ih =>
    simp only [List.foldl_cons]
    rcases List.mem_cons.mp hk with rfl | hk2
    · have hfr := foldl_zero_frame sp g ks (splitPath sp ++ [k])
        (fun y hy => by
          rw [splitPath_append_key sp y (hdots y (List.mem_cons_of_mem _ hy))]
          exact PathsApart_snoc_ne (splitPath sp) y k
            (fun he => (List.nodup_cons.mp hnd).1 (he ▸ hy)))
        (setPath root (splitPath (sp ++ "." ++ k)) (g k))
      rw [hfr, splitPath_append_key sp k (hdots k (List.mem_cons_self _ _))]
      exact getPath_setPath_self _ root (g k)
    · exact ih (List.nodup_cons.mp hnd).2
        (fun y hy => hdots y (List.mem_cons_of_mem _ hy)) hk2 _

theorem executeSet_push_unfold (now : Nat) (raw path e srcStr : String) (store : Store)
    (fields : List (String × JsVal))
    (hparse : parseSetExpr raw = ⟨path, some e⟩)
    (hpush : parsePush (some e) = some (some srcStr))
    (hne : srcStr ≠ "")
    (hsrc : store.get srcStr = JsVal.obj fields) :
    executeSet now raw store
      = store.batch (fun st =>
          (jsKeys (JsVal.obj fields)).foldl
            (fun acc k => acc.set (srcStr ++ "." ++ k)
              (zeroValue (jsGet (JsVal.obj fields) k)))
            (st.set (path ++ "." ++ genKey now) (jsonClone (JsVal.obj fields)))) := by
  have hdel : ¬((some e : Option String) = some "delete") := by
    intro he
    rw [Option.some.inj he] at hpush
    exact Option.noConfusion hpush
  unfold executeSet
  rw [hparse]
  simp only [if_neg hdel, hpush, if_neg hne, hsrc]
  rw [if_neg (by simp [jsTruthy, jsTypeof])]

/-- Claim C1: a push whose source path holds a present object performs, in a
single batch, one write of the JSON deep copy of the source under the fresh
key beneath the target path and one type-appropriate zero write per source
field; subscribers observe exactly one notification pass, in whose state both
halves have landed; and subsequent mutation of the source (or of any of its
fields) does not affect the copy.  Hypotheses: the source path is nonempty
(an empty parsed source, as in `push( )`, is falsy in JavaScript and aborts
the push before any write), the source's keys are unique and separator-free
(as JavaScript object keys are), the source survives the JSON round trip,
and source and target paths address disjoint subtrees. -/
theorem C1_push_atomic (now : Nat) (raw path e srcStr : String) (store : Store)
    (fields : List (String × JsVal))
    (hparse : parseSetExpr raw = ⟨path, some e⟩)
    (hpush : parsePush (some e) = some (some srcStr))
    (hne : srcStr ≠ "")
    (hsrc : store.get srcStr = JsVal.obj fields)
    (hclean : jsonClone (JsVal.obj fields) = JsVal.obj fields)
    (hnd : (fields.map (fun kv => kv.1)).Nodup)
    (hdots : ∀ kv ∈ fields, '.' ∉ kv.1.toList)
    (hapart : PathsApart (splitPath path) (splitPath srcStr)) :
    (executeSet now raw store).writes
      = store.writes ++ (path ++ "." ++ genKey now, JsVal.obj fields)
          :: fields.map (fun kv => (srcStr ++ "." ++ kv.1, zeroValue kv.2)) ∧
    (executeSet now raw store).obs = store.obs ++ [(executeSet now raw store).root] ∧
    (executeSet now raw store).get (path ++ "." ++ genKey now) = JsVal.obj fields ∧
    (∀ kv ∈ fields,
      (executeSet now raw store).get (srcStr ++ "." ++ kv.1) = zeroValue kv.2) ∧
    (∀ (f : String) (w : JsVal),
      ((executeSet now raw store).set (srcStr ++ "." ++ f) w).get
        (path ++ "." ++ genKey now) = JsVal.obj fields) ∧
    (∀ w : JsVal,
      ((executeSet now raw store).set srcStr w).get (path ++ "." ++ genKey now)
        = JsVal.obj fields) := by
  have hunfold := executeSet_push_unfold now raw path e srcStr store fields hparse hpush hne hsrc
  have hkeys : jsKeys (JsVal.obj fields) = fields.map (fun kv => kv.1) := rfl
  have hgfun : (fun (acc : Store) (k : String) => acc.set (srcStr ++ "." ++ k)
        (zeroValue (jsGet (JsVal.obj fields) k)))
      = (fun acc k => acc.set (srcStr ++ "." ++ k) (zeroValue (objGetD fields k))) := by
    funext acc k; rw [jsGet_obj]
  -- the apartness facts
  have hapS : PathsApart (splitPath srcStr) (splitPath path) := hapart.symm
  have hapartk : ∀ y ∈ fields.map (fun kv => kv.1),
      PathsApart (splitPath (srcStr ++ "." ++ y)) (splitPath path ++ [genKey now]) := by
    intro y hy
    have hynd : '.' ∉ y.toList := by
      rcases List.mem_map.mp hy with ⟨kv, hkv, rfl⟩
      exact hdots kv hkv
    rw [splitPath_append_key srcStr y hynd]
    exact hapS.append [y] [genKey now]
  -- the root of the batch body
  have hroot : (executeSet now raw store).root
      = (fields.map (fun kv => kv.1)).foldl
          (fun rt k => setPath rt (splitPath (srcStr ++ "." ++ k)) (zeroValue (objGetD fields k)))
          (setPath store.root (splitPath (path ++ "." ++ genKey now)) (JsVal.obj fields)) := by
    rw [hunfold]
    simp only [Store.batch]
    rw [hkeys, hgfun, foldl_set_root]
    rw [hclean]
    rfl
  have hcopy : getPath (executeSet now raw store).root (splitPath path ++ [genKey now])
      = JsVal.obj fields := by
    rw [hroot, foldl_zero_frame srcStr _ _ _ hapartk,
      ← splitPath_append_key path (genKey now) (genKey_no_dot now)]
    exact getPath_setPath_self _ store.root (JsVal.obj fields)
  refine ⟨?_, ?_, ?_, ?_, ?_, ?_⟩
  · -- write log
    rw [hunfold]
    simp only [Store.batch]
    rw [hkeys, hgfun, foldl_set_writes]
    rw [map_keys_entries fields hnd (fun k v => (srcStr ++ "." ++ k, zeroValue v))]
    rw [show (Store.set ⟨store.root, store.writes, []⟩ (path ++ "." ++ genKey now)
        (jsonClone (JsVal.obj fields))).writes
      = store.writes ++ [(path ++ "." ++ genKey now, jsonClone (JsVal.obj fields))] from rfl]
    rw [hclean]
    simp
  · -- exactly one notification pass, of the final state
    rw [hunfold]
    rfl
  · -- the copy is present under the fresh key
    show getPath (executeSet now raw store).root (splitPath (path ++ "." ++ genKey now))
      = JsVal.obj fields
    rw [splitPath_append_key path (genKey now) (genKey_no_dot now)]
    exact hcopy
  · -- every source field zeroed
    intro kv hkv
    show getPath (executeSet now raw store).root (splitPath (srcStr ++ "." ++ kv.1))
      = zeroValue kv.2
    rw [hroot, splitPath_append_key srcStr kv.1 (hdots kv hkv)]
    rw [foldl_zero_lookup srcStr (fun k => zeroValue (objGetD fields k))
      (fields.map (fun kv => kv.1)) hnd
      (fun y hy => by
        rcases List.mem_map.mp hy with ⟨kv2, hkv2, rfl⟩
        exact hdots kv2 hkv2)
      kv.1 (List.mem_map_of_mem (fun kv => kv.1) hkv)]
    rw [objGetD, assocGet_of_mem_nodup fields kv hnd hkv]
    rfl
  · -- independence against later writes to source fields
    intro f w
    show getPath (setPath (executeSet now raw store).root
        (splitPath (srcStr ++ "." ++ f)) w) (splitPath (path ++ "." ++ genKey now))
      = JsVal.obj fields
    rw [splitPath_append_key path (genKey now) (genKey_no_dot now)]
    rw [splitPath_append srcStr f]
    rw [getPath_setPath_apart _ _ _ w (hapS.append (splitPath f) [genKey now])]
    exact hcopy
  · -- independence against replacing the whole source
    intro w
    show getPath (setPath (executeSet now raw store).root
        (splitPath srcStr) w) (splitPath (path ++ "." ++ genKey now))
      = JsVal.obj fields
    rw [splitPath_append_key path (genKey now) (genKey_no_dot now)]
    have hap2 : PathsApart (splitPath srcStr) (splitPath path ++ [genKey now]) := by
      have := hapS.append ([] : List String) [genKey now]
      rwa [List.append_nil] at this
    rw [getPath_setPath_apart _ _ _ w hap2]
    exact hcopy

/-- Witness for C1: pushing `draft = {text:"X", done:true}` into `todos` at
instant 5 stores the copy under the fresh key and zeroes the source fields. -/
theorem C1_witness :
    (executeSet 5 "todos:push(draft)"
        ⟨JsVal.obj [("draft", JsVal.obj [("text", JsVal.str "X"), ("done", JsVal.bool true)]),
                    ("todos", JsVal.obj [])], [], []⟩).get ("todos" ++ "." ++ genKey 5)
      = JsVal.obj [("text", JsVal.str "X"), ("done", JsVal.bool true)] ∧
    (executeSet 5 "todos:push(draft)"
        ⟨JsVal.obj [("draft", JsVal.obj [("text", JsVal.str "X"), ("done", JsVal.bool true)]),
                    ("todos", JsVal.obj [])], [], []⟩).get ("draft" ++ "." ++ "text")
      = JsVal.str "" :=
  ⟨(C1_push_atomic 5 "todos:push(draft)" "todos" "push(draft)" "draft"
      ⟨JsVal.obj [("draft", JsVal.obj [("text", JsVal.str "X"), ("done", JsVal.bool true)]),
                  ("todos", JsVal.obj [])], [], []⟩
      [("text", JsVal.str "X"), ("done", JsVal.bool true)]
      rfl rfl (by decide) rfl rfl (by decide) (by decide) (by decide)).2.2.1,
   (C1_push_atomic 5 "todos:push(draft)" "todos" "push(draft)" "draft"
      ⟨JsVal.obj [("draft", JsVal.obj [("text", JsVal.str "X"), ("done", JsVal.bool true)]),
                  ("todos", JsVal.obj [])], [], []⟩
      [("text", JsVal.str "X"), ("done", JsVal.bool true)]
      rfl rfl (by decide) rfl rfl (by decide) (by decide) (by decide)).2.2.2.1
     ("text", JsVal.str "X") (List.mem_cons_self _ _)⟩

-- =========================================================================
-- Lemmas: the reconciler's phases
-- =========================================================================

theorem containsNode_iff (el : Elem) (i : Nat) :
    el.containsNode i = true ↔ i ∈ elemIds el := by
  simp [Elem.containsNode]

theorem setDataKey_ids (el : Elem) (k : String) : elemIds (setDataKey el k) = elemIds el := by
  cases el with
  | mk nodes =>
    cases nodes with
    | nil => rfl
    | cons n rest => rfl

theorem nodeBindings_node (n : DNode) : ∀ b ∈ nodeBindings n, b.node = n.id := by
  intro b hb
  unfold nodeBindings at hb
  rcases List.mem_append.mp hb with hb1 | hb1
  · rcases List.mem_append.mp hb1 with hb2 | hb2
    · rcases List.mem_append.mp hb2 with hb3 | hb3
      · revert hb3
        cases n.attr "bind-text" with
        | none => intro hb3; cases hb3
        | some p => intro hb3; rw [List.mem_singleton.mp hb3]
      · revert hb3
        cases n.attr "bind-value" with
        | none => intro hb3; cases hb3
        | some p => intro hb3; rw [List.mem_singleton.mp hb3]
    · revert hb2
      cases n.attr "bind-focus" with
      | none => intro hb2; cases hb2
      | some p => intro hb2; rw [List.mem_singleton.mp hb2]
  · rcases List.mem_filterMap.mp hb1 with ⟨a, _, ha⟩
    revert ha
    by_cases h1 : "bind-data-".isPrefixOf a.1
    · simp only [if_pos h1]
      intro ha
      rw [← Option.some.inj ha]
    · by_cases h2 : "bind-attr-".isPrefixOf a.1
      · simp only [if_neg h1, if_pos h2]
        intro ha
        rw [← Option.some.inj ha]
      · simp only [if_neg h1, if_neg h2]
        intro ha
        cases ha

theorem scanFold_subs_spec (l : List DNode) (ss : ScanState) :
    ∀ b ∈ (l.foldl scanNode ss).subs, b ∈ ss.subs ∨ ∃ n ∈ l, b.node = n.id := by
  induction l generalizing ss with
  | nil => intro b hb; exact Or.inl hb
  | cons m rest ih =>
    intro b hb
    rcases ih (scanNode ss m) b hb with hb1 | hrest
    · unfold scanNode at hb1
      by_cases hm : m.id ∈ ss.marks
      · rw [if_pos hm] at hb1
        exact Or.inl hb1
      · rw [if_neg hm] at hb1
        rcases List.mem_append.mp hb1 with hb2 | hb2
        · exact Or.inl hb2
        · exact Or.inr ⟨m, List.mem_cons_self _ _, nodeBindings_node m b hb2⟩
    · obtain ⟨n, hn, he⟩ := hrest
      exact Or.inr ⟨n, List.mem_cons_of_mem _ hn, he⟩

theorem scanBindings_subs_spec (ss : ScanState) (el : Elem) :
    ∀ b ∈ (scanBindings ss el).subs, b ∈ ss.subs ∨ b.node ∈ elemIds el := by
  intro b hb
  rcases scanFold_subs_spec el.nodes ss b hb with h | hex
  · exact Or.inl h
  · obtain ⟨n, hn, he⟩ := hex
    exact Or.inr (he ▸ List.mem_map_of_mem (fun n => n.id) hn)

theorem removePhase_rendered (keys : List String) :
    ∀ (rendered : List (String × Elem)) (subs : List Binding),
    (removePhase keys rendered subs).1 = rendered.filter (fun kv => kv.1 ∈ keys) := by
  intro rendered
  induction rendered with
  | nil => intro subs; rfl
  | cons kv rest ih =>
    intro subs
    obtain ⟨k, el⟩ := kv
    by_cases hk : k ∈ keys
    · simp [removePhase, hk, ih]
    · simp [removePhase, hk, ih]

theorem removePhase_subs_subset (keys : List String) :
    ∀ (rendered : List (String × Elem)) (subs : List Binding),
    ∀ b ∈ (removePhase keys rendered subs).2, b ∈ subs := by
  intro rendered
  induction rendered with
  | nil => intro subs b hb; exact hb
  | cons kv rest ih =>
    intro subs b hb
    obtain ⟨k, el⟩ := kv
    by_cases hk : k ∈ keys
    · simp only [removePhase, if_pos hk] at hb
      exact ih subs b hb
    · simp only [removePhase, if_neg hk] at hb
      have hsub := ih (cleanupWithin el subs).1 b hb
      rw [cleanup_keep_filter] at hsub
      exact List.mem_of_mem_filter hsub

theorem removePhase_subs_clean (keys : List String) :
    ∀ (rendered : List (String × Elem)) (subs : List Binding) (kv : String × Elem),
    kv ∈ rendered → kv.1 ∉ keys →
    ∀ b ∈ (removePhase keys rendered subs).2, b.node ∉ elemIds kv.2 := by
  intro rendered
  induction rendered with
  | nil => intro subs kv hkv; cases hkv
  | cons hd rest ih =>
    intro subs kv hkv hknot b hb
    obtain ⟨k, el⟩ := hd
    by_cases hk : k ∈ keys
    · simp only [removePhase, if_pos hk] at hb
      rcases List.mem_cons.mp hkv with rfl | hkv2
      · exact absurd hk hknot
      · exact ih subs kv hkv2 hknot b hb
    · simp only [removePhase, if_neg hk] at hb
      rcases List.mem_cons.mp hkv with rfl | hkv2
      · have hsub : b ∈ (cleanupWithin el subs).1 :=
          removePhase_subs_subset keys rest _ b hb
        rw [cleanup_keep_filter] at hsub
        have hpred := List.of_mem_filter hsub
        have hcontains : el.containsNode b.node = false := by
          cases hcc : el.containsNode b.node
          · rfl
          · rw [hcc] at hpred; cases hpred
        intro hmem
        rw [(containsNode_iff el b.node).mpr hmem] at hcontains
        cases hcontains
      · exact ih _ kv hkv2 hknot b hb

theorem addPhase_subs_spec (pm : String → List Elem) (cp tpl : String) :
    ∀ (ks : List String) (rendered : List (String × Elem)) (ss : ScanState),
    ∀ b ∈ (addPhase pm cp tpl ks rendered ss).2.subs,
    b ∈ ss.subs ∨ ∃ k ∈ ks, b.node ∈ elemIds ((pm (resolveTpl tpl cp k)).headD ⟨[]⟩) := by
  intro ks
  induction ks with
  | nil => intro rendered ss b hb; exact Or.inl hb
  | cons k ks ih =>
    intro rendered ss b hb
    by_cases hmem : k ∈ keysOf rendered
    · simp only [addPhase, if_pos hmem] at hb
      rcases ih rendered ss b hb with h | hex
      · exact Or.inl h
      · obtain ⟨k2, hk2, hid⟩ := hex
        exact Or.inr ⟨k2, List.mem_cons_of_mem _ hk2, hid⟩
    · cases hp : pm (resolveTpl tpl cp k) with
      | nil =>
        simp only [addPhase, if_neg hmem, hp] at hb
        rcases ih rendered ss b hb with h | hex
        · exact Or.inl h
        · obtain ⟨k2, hk2, hid⟩ := hex
          exact Or.inr ⟨k2, List.mem_cons_of_mem _ hk2, hid⟩
      | cons el rest =>
        simp only [addPhase, if_neg hmem, hp] at hb
        rcases ih _ _ b hb with h | hex
        · rcases scanBindings_subs_spec ss (setDataKey el k) b h with h2 | h2
          · exact Or.inl h2
          · rw [setDataKey_ids] at h2
            exact Or.inr ⟨k, List.mem_cons_self _ _, by rw [hp]; exact h2⟩
        · obtain ⟨k2, hk2, hid⟩ := hex
          exact Or.inr ⟨k2, List.mem_cons_of_mem _ hk2, hid⟩

theorem addPhase_rendered (pm : String → List Elem) (cp tpl : String) :
    ∀ (ks : List String) (rendered : List (String × Elem)) (ss : ScanState), ks.Nodup →
    (addPhase pm cp tpl ks rendered ss).1
      = rendered ++ (ks.filter
            (fun k => k ∉ keysOf rendered ∧ pm (resolveTpl tpl cp k) ≠ [])).map
          (fun k => (k, setDataKey ((pm (resolveTpl tpl cp k)).headD ⟨[]⟩) k)) := by
  intro ks
  induction ks with
  | nil => intro rendered ss _; simp [addPhase]
  | cons k ks ih =>
    intro rendered ss hnd
    by_cases hmem : k ∈ keysOf rendered
    · simp only [addPhase, if_pos hmem]
      rw [ih rendered ss (List.nodup_cons.mp hnd).2]
      rw [List.filter_cons]
      simp [hmem]
    · cases hp : pm (resolveTpl tpl cp k) with
      | nil =>
        simp only [addPhase, if_neg hmem, hp]
        rw [ih rendered ss (List.nodup_cons.mp hnd).2]
        rw [List.filter_cons]
        simp [hp]
      | cons el rest =>
        simp only [addPhase, if_neg hmem, hp]
        rw [ih (rendered ++ [(k, setDataKey el k)]) (scanBindings ss (setDataKey el k))
          (List.nodup_cons.mp hnd).2]
        have hknotin : ∀ y ∈ ks, ¬(y = k) :=
          fun y hy he => (List.nodup_cons.mp hnd).1 (he ▸ hy)
        have hfiltereq : ks.filter
              (fun y => y ∉ keysOf (rendered ++ [(k, setDataKey el k)]) ∧
                pm (resolveTpl tpl cp y) ≠ [])
            = ks.filter (fun y => y ∉ keysOf rendered ∧ pm (resolveTpl tpl cp y) ≠ []) := by
          apply List.filter_congr
          intro y hy
          have hmemiff : (y ∈ keysOf (rendered ++ [(k, setDataKey el k)]))
              ↔ (y ∈ keysOf rendered) := by
            simp [keysOf, hknotin y hy]
          simp [hmemiff]
        rw [hfiltereq, List.filter_cons]
        simp only [hmem, hp, decide_eq_true_eq]
        simp [hp, hmem, List.append_assoc]

theorem toList_inj (a b : String) (h : a.toList = b.toList) : a = b := by
  rw [← mk_toList a, ← mk_toList b, h]

theorem foldl_join_toList (ks : List String) : ∀ acc : String,
    (ks.foldl (fun a x => a ++ "," ++ x) acc).toList
      = acc.toList ++ ks.flatMap (fun y => ',' :: y.toList) := by
  induction ks with
  | nil => intro acc; simp
  | cons k ks ih =>
    intro acc
    simp only [List.foldl_cons]
    rw [ih, toList_append, toList_append]
    simp [List.flatMap_cons]

theorem joinKeys_cons_toList (k : String) (ks : List String) :
    (joinKeys (k :: ks)).toList = k.toList ++ ks.flatMap (fun y => ',' :: y.toList) :=
  foldl_join_toList ks k

theorem sep_head_inj : ∀ (a b r s : List Char), ',' ∉ a → ',' ∉ b →
    a ++ ',' :: r = b ++ ',' :: s → a = b ∧ r = s := by
  intro a
  induction a with
  | nil =>
    intro b r s _ hb h
    cases b with
    | nil =>
      simp only [List.nil_append] at h
      injection h with _ h2
      exact ⟨rfl, h2⟩
    | cons y ys =>
      simp only [List.nil_append, List.cons_append] at h
      injection h with h1 _
      exact absurd (by rw [← h1]; exact List.mem_cons_self _ _) hb
  | cons x xs ih =>
    intro b r s ha hb h
    cases b with
    | nil =>
      simp only [List.cons_append, List.nil_append] at h
      injection h with h1 _
      exact absurd (by rw [h1]; exact List.mem_cons_self _ _) ha
    | cons y ys =>
      simp only [List.cons_append] at h
      injection h with h1 h2
      obtain ⟨hab, hrs⟩ := ih ys r s (fun hm => ha (List.mem_cons_of_mem _ hm))
        (fun hm => hb (List.mem_cons_of_mem _ hm)) h2
      exact ⟨by rw [h1, hab], hrs⟩

theorem joinKeys_inj : ∀ (l1 l2 : List String),
    (∀ k ∈ l1, k ≠ "" ∧ ',' ∉ k.toList) → (∀ k ∈ l2, k ≠ "" ∧ ',' ∉ k.toList) →
    joinKeys l1 = joinKeys l2 → l1 = l2 := by
  intro l1
  induction l1 with
  | nil =>
    intro l2 _ h2 h
    cases l2 with
    | nil => rfl
    | cons k ks =>
      exfalso
      have hl := congrArg String.toList h
      rw [joinKeys_cons_toList] at hl
      cases hkl : k.toList with
      | nil => exact (h2 k (List.mem_cons_self _ _)).1 (toList_inj k "" hkl)
      | cons c cs =>
        rw [hkl] at hl
        simp [joinKeys] at hl
  | cons k1 ks1 ih =>
    intro l2 h1 h2 h
    cases l2 with
    | nil =>
      exfalso
      have hl := congrArg String.toList h
      rw [joinKeys_cons_toList] at hl
      cases hkl : k1.toList with
      | nil => exact (h1 k1 (List.mem_cons_self _ _)).1 (toList_inj k1 "" hkl)
      | cons c cs =>
        rw [hkl] at hl
        simp [joinKeys] at hl
    | cons k2 ks2 =>
      have hl := congrArg String.toList h
      rw [joinKeys_cons_toList, joinKeys_cons_toList] at hl
      cases ks1 with
      | nil =>
        cases ks2 with
        | nil =>
          simp only [List.flatMap_nil, List.append_nil] at hl
          rw [toList_inj k1 k2 hl]
        | cons x xs =>
          exfalso
          simp only [List.flatMap_nil, List.append_nil, List.flatMap_cons] at hl
          have hmem : ',' ∈ k1.toList := by
            rw [hl]
            exact List.mem_append.mpr (Or.inr (by simp))
          exact (h1 k1 (List.mem_cons_self _ _)).2 hmem
      | cons x xs =>
        cases ks2 with
        | nil =>
          exfalso
          simp only [List.flatMap_nil, List.append_nil, List.flatMap_cons] at hl
          have hmem : ',' ∈ k2.toList := by
            rw [← hl]
            exact List.mem_append.mpr (Or.inr (by simp))
          exact (h2 k2 (List.mem_cons_self _ _)).2 hmem
        | cons y ys =>
          simp only [List.flatMap_cons, List.cons_append] at hl
          have hl2 : k1.toList ++ ',' :: (x.toList ++ xs.flatMap (fun y => ',' :: y.toList))
              = k2.toList ++ ',' :: (y.toList ++ ys.flatMap (fun y => ',' :: y.toList)) := by
            simpa using hl
          obtain ⟨hk, hrest⟩ := sep_head_inj k1.toList k2.toList _ _
            (h1 k1 (List.mem_cons_self _ _)).2 (h2 k2 (List.mem_cons_self _ _)).2 hl2
          have hks : (x :: xs) = (y :: ys) := by
            apply ih (y :: ys)
              (fun k hk2 => h1 k (List.mem_cons_of_mem _ hk2))
              (fun k hk2 => h2 k (List.mem_cons_of_mem _ hk2))
            apply toList_inj
            rw [joinKeys_cons_toList, joinKeys_cons_toList]
            exact hrest
          rw [toList_inj k1 k2 hk, hks]

theorem assocGet_none_of_not_mem {α : Type} (l : List (String × α)) (k : String)
    (h : k ∉ l.map (fun p => p.1)) : assocGet l k = none := by
  induction l with
  | nil => rfl
  | cons p rest ih =>
    obtain ⟨a, v⟩ := p
    have ha : ¬(a = k) := fun he => h (by rw [he]; exact List.mem_cons_self _ _)
    simp only [assocGet, if_neg ha]
    exact ih (fun hm => h (List.mem_cons_of_mem _ hm))

theorem assocGet_map_of_mem {α : Type} (f : String → α) (l : List String) (k : String)
    (hk : k ∈ l) : assocGet (l.map (fun x => (x, f x))) k = some (f k) := by
  induction l with
  | nil => cases hk
  | cons x rest ih =>
    by_cases hx : x = k
    · subst hx; simp [assocGet]
    · rcases List.mem_cons.mp hk with rfl | hk2
      · exact absurd rfl hx
      · simp only [List.map_cons, assocGet, if_neg hx]
        exact ih hk2

-- =========================================================================
-- Claim C2: reconciler convergence
-- =========================================================================

/-- Counterexample to claim C2 as stated: with a template whose substituted
markup parses to no root element, a run of `reconcile` leaves the mapping
empty although the collection has one present key — the mapping does not
contain exactly the present keys. -/
theorem C2_counterexample :
    collKeys (JsVal.obj [("todos", JsVal.obj [("a", JsVal.num 1)])]) "todos" = ["a"] ∧
    (reconcile (fun _ => []) "todos" "x"
        (JsVal.obj [("todos", JsVal.obj [("a", JsVal.num 1)])]) ⟨[], ""⟩ ⟨[], []⟩).1.rendered
      = [] ∧
    keysOf (reconcile (fun _ => []) "todos" "x"
        (JsVal.obj [("todos", JsVal.obj [("a", JsVal.num 1)])]) ⟨[], ""⟩ ⟨[], []⟩).1.rendered
      ≠ collKeys (JsVal.obj [("todos", JsVal.obj [("a", JsVal.num 1)])]) "todos" :=
  ⟨rfl, rfl, by decide⟩

/-- Claim C2 (amended): provided every substituted markup parses to at least
one root element, the present keys are nonempty, comma-free and unique, the
reconciler state satisfies its invariant, and newly parsed elements are fresh
with respect to the elements being removed, then after a run of `reconcile`
the key-to-element mapping (whose values are the container's rendered
children) contains exactly the present keys, the invariant is re-established,
and no binding in the registry references a node inside any removed element
(zero dangling bindings). -/
theorem C2_reconcile_exact (pm : String → List Elem) (cp tpl : String) (root : JsVal)
    (cs : CollState) (ss : ScanState)
    (hInv : InvColl cs)
    (hkeys : ∀ k ∈ collKeys root cp, k ≠ "" ∧ ',' ∉ k.toList)
    (hnd : (collKeys root cp).Nodup)
    (htpl : ∀ k ∈ collKeys root cp, pm (resolveTpl tpl cp k) ≠ [])
    (hfresh : ∀ k ∈ collKeys root cp, ∀ kv ∈ cs.rendered, kv.1 ∉ collKeys root cp →
      ∀ i ∈ elemIds ((pm (resolveTpl tpl cp k)).headD ⟨[]⟩), i ∉ elemIds kv.2) :
    (∀ x, x ∈ keysOf (reconcile pm cp tpl root cs ss).1.rendered ↔ x ∈ collKeys root cp) ∧
    InvColl (reconcile pm cp tpl root cs ss).1 ∧
    (∀ b ∈ (reconcile pm cp tpl root cs ss).2.subs, ∀ kv ∈ cs.rendered,
      kv.1 ∉ collKeys root cp → b.node ∉ elemIds kv.2) := by
  obtain ⟨L, hL1, hL2, hL3⟩ := hInv
  by_cases hbail : joinKeys (collKeys root cp) = cs.lastKeyStr
  · have hres : reconcile pm cp tpl root cs ss = (cs, ss) := by
      unfold reconcile
      rw [if_pos hbail]
    have hLK : collKeys root cp = L := joinKeys_inj _ _ hkeys hL2 (hbail.trans hL1)
    rw [hres]
    refine ⟨?_, ⟨L, hL1, hL2, hL3⟩, ?_⟩
    · intro x
      rw [hLK]
      exact hL3 x
    · intro b hb kv hkv hknot
      exfalso
      apply hknot
      rw [hLK]
      exact (hL3 kv.1).mp (List.mem_map_of_mem (fun kv => kv.1) hkv)
  · have hres : reconcile pm cp tpl root cs ss
        = (⟨(addPhase pm cp tpl (collKeys root cp)
              (removePhase (collKeys root cp) cs.rendered ss.subs).1
              ⟨ss.marks, (removePhase (collKeys root cp) cs.rendered ss.subs).2⟩).1,
            joinKeys (collKeys root cp)⟩,
           (addPhase pm cp tpl (collKeys root cp)
              (removePhase (collKeys root cp) cs.rendered ss.subs).1
              ⟨ss.marks, (removePhase (collKeys root cp) cs.rendered ss.subs).2⟩).2) := by
      unfold reconcile
      rw [if_neg hbail]
    have hrem := removePhase_rendered (collKeys root cp) cs.rendered ss.subs
    have hadd := addPhase_rendered pm cp tpl (collKeys root cp)
      (removePhase (collKeys root cp) cs.rendered ss.subs).1
      ⟨ss.marks, (removePhase (collKeys root cp) cs.rendered ss.subs).2⟩ hnd
    -- membership in the post-state mapping
    have hmemiff : ∀ x, x ∈ keysOf (reconcile pm cp tpl root cs ss).1.rendered
        ↔ x ∈ collKeys root cp := by
      intro x
      rw [hres]
      show x ∈ keysOf (addPhase pm cp tpl (collKeys root cp) _ _).1 ↔ _
      rw [hadd]
      unfold keysOf
      rw [List.map_append]
      constructor
      · intro hx
        rcases List.mem_append.mp hx with hx1 | hx1
        · rw [hrem] at hx1
          rcases List.mem_map.mp hx1 with ⟨kv, hkvf, rfl⟩
          have := List.of_mem_filter hkvf
          simpa using this
        · rcases List.mem_map.mp hx1 with ⟨k2, hk2, rfl⟩
          rcases List.mem_map.mp hk2 with ⟨k3, hk3, rfl⟩
          exact List.mem_of_mem_filter hk3
      · intro hx
        by_cases hx1 : x ∈ keysOf (removePhase (collKeys root cp) cs.rendered ss.subs).1
        · exact List.mem_append.mpr (Or.inl hx1)
        · apply List.mem_append.mpr
          apply Or.inr
          have hxf : x ∈ (collKeys root cp).filter
              (fun k => k ∉ keysOf (removePhase (collKeys root cp) cs.rendered ss.subs).1 ∧
                pm (resolveTpl tpl cp k) ≠ []) := by
            apply List.mem_filter.mpr
            refine ⟨hx, ?_⟩
            simp only [decide_eq_true_eq]
            exact ⟨hx1, htpl x hx⟩
          have hgoal : x ∈ (((collKeys root cp).filter
              (fun k => k ∉ keysOf (removePhase (collKeys root cp) cs.rendered ss.subs).1 ∧
                pm (resolveTpl tpl cp k) ≠ [])).map
              (fun k => (k, setDataKey ((pm (resolveTpl tpl cp k)).headD ⟨[]⟩) k))).map
              (fun kv => kv.1) := by
            rw [List.map_map]
            simpa using hxf
          exact hgoal
    refine ⟨hmemiff, ⟨collKeys root cp, ?_, hkeys, ?_⟩, ?_⟩
    · rw [hres]
    · intro x
      exact hmemiff x
    · intro b hb kv hkv hknot
      rw [hres] at hb
      rcases addPhase_subs_spec pm cp tpl (collKeys root cp) _ _ b hb with hb1 | hb1
      · exact removePhase_subs_clean (collKeys root cp) cs.rendered ss.subs kv hkv hknot b hb1
      · obtain ⟨k2, hk2, hid⟩ := hb1
        exact hfresh k2 hk2 kv hkv hknot b.node hid

/-- Witness for C2: reconciling the collection `{a:1, b:2}` from the initial
mount state with a one-root template yields a mapping holding exactly the
keys `a` and `b`. -/
theorem C2_witness :
    ("a" ∈ keysOf (reconcile (fun _ => [Elem.mk [DNode.mk 3 []]]) "todos" "x"
        (JsVal.obj [("todos", JsVal.obj [("a", JsVal.num 1), ("b", JsVal.num 2)])])
        ⟨[], ""⟩ ⟨[], []⟩).1.rendered
      ↔ "a" ∈ collKeys (JsVal.obj [("todos", JsVal.obj [("a", JsVal.num 1), ("b", JsVal.num 2)])]) "todos") ∧
    ("b" ∈ keysOf (reconcile (fun _ => [Elem.mk [DNode.mk 3 []]]) "todos" "x"
        (JsVal.obj [("todos", JsVal.obj [("a", JsVal.num 1), ("b", JsVal.num 2)])])
        ⟨[], ""⟩ ⟨[], []⟩).1.rendered
      ↔ "b" ∈ collKeys (JsVal.obj [("todos", JsVal.obj [("a", JsVal.num 1), ("b", JsVal.num 2)])]) "todos") :=
  ⟨(C2_reconcile_exact (fun _ => [Elem.mk [DNode.mk 3 []]]) "todos" "x"
      (JsVal.obj [("todos", JsVal.obj [("a", JsVal.num 1), ("b", JsVal.num 2)])])
      ⟨[], ""⟩ ⟨[], []⟩ ⟨[], rfl, by simp, fun x => Iff.rfl⟩
      (by decide) (by decide) (by decide) (by simp)).1 "a",
   (C2_reconcile_exact (fun _ => [Elem.mk [DNode.mk 3 []]]) "todos" "x"
      (JsVal.obj [("todos", JsVal.obj [("a", JsVal.num 1), ("b", JsVal.num 2)])])
      ⟨[], ""⟩ ⟨[], []⟩ ⟨[], rfl, by simp, fun x => Iff.rfl⟩
      (by decide) (by decide) (by decide) (by simp)).1 "b"⟩

-- =========================================================================
-- Claim C8: malformed template markup during reconciliation
-- =========================================================================

/-- Counterexample to claim C8 as stated: when the substituted markup yields
TWO root elements (so not exactly one), the key is NOT skipped — the first
root element is inserted for it (`tmp.firstElementChild` only checks that
there is at least one root). -/
theorem C8_counterexample :
    (reconcile (fun _ => [Elem.mk [DNode.mk 1 []], Elem.mk [DNode.mk 2 []]]) "todos" "x"
        (JsVal.obj [("todos", JsVal.obj [("a", JsVal.num 1)])]) ⟨[], ""⟩ ⟨[], []⟩).1.rendered
      = [("a", Elem.mk [DNode.mk 1 [("data-key", "a")]])] ∧
    ((fun (_ : String) => [Elem.mk [DNode.mk 1 []], Elem.mk [DNode.mk 2 []]])
        (resolveTpl "x" "todos" "a")).length = 2 :=
  ⟨rfl, rfl⟩

/-- Claim C8 (amended): during a reconciliation pass (no signature bail), for
every present key not yet rendered: if the substituted markup yields NO root
element the key is skipped — no element is inserted for it this pass (it is
retried on the next structural change, since the add loop leaves it out of
the mapping); if it yields one or more root elements, the first root element,
tagged with the key, is inserted for it. -/
theorem C8_skip_or_first (pm : String → List Elem) (cp tpl : String) (root : JsVal)
    (cs : CollState) (ss : ScanState) (k : String)
    (hnd : (collKeys root cp).Nodup)
    (hbail : joinKeys (collKeys root cp) ≠ cs.lastKeyStr)
    (hk : k ∈ collKeys root cp)
    (hnr : k ∉ keysOf cs.rendered) :
    (pm (resolveTpl tpl cp k) = [] →
      k ∉ keysOf (reconcile pm cp tpl root cs ss).1.rendered) ∧
    (∀ (el : Elem) (rest : List Elem), pm (resolveTpl tpl cp k) = el :: rest →
      assocGet (reconcile pm cp tpl root cs ss).1.rendered k = some (setDataKey el k)) := by
  have hres : reconcile pm cp tpl root cs ss
      = (⟨(addPhase pm cp tpl (collKeys root cp)
            (removePhase (collKeys root cp) cs.rendered ss.subs).1
            ⟨ss.marks, (removePhase (collKeys root cp) cs.rendered ss.subs).2⟩).1,
          joinKeys (collKeys root cp)⟩,
         (addPhase pm cp tpl (collKeys root cp)
            (removePhase (collKeys root cp) cs.rendered ss.subs).1
            ⟨ss.marks, (removePhase (collKeys root cp) cs.rendered ss.subs).2⟩).2) := by
    unfold reconcile
    rw [if_neg hbail]
  have hrem := removePhase_rendered (collKeys root cp) cs.rendered ss.subs
  have hadd := addPhase_rendered pm cp tpl (collKeys root cp)
    (removePhase (collKeys root cp) cs.rendered ss.subs).1
    ⟨ss.marks, (removePhase (collKeys root cp) cs.rendered ss.subs).2⟩ hnd
  have hnp1 : k ∉ keysOf (removePhase (collKeys root cp) cs.rendered ss.subs).1 := by
    intro hk1
    apply hnr
    rw [hrem] at hk1
    rcases List.mem_map.mp hk1 with ⟨kv, hkvf, rfl⟩
    exact List.mem_map_of_mem (fun kv => kv.1) (List.mem_of_mem_filter hkvf)
  constructor
  · intro hp hkin
    rw [hres] at hkin
    show False
    have : k ∈ keysOf ((removePhase (collKeys root cp) cs.rendered ss.subs).1
        ++ ((collKeys root cp).filter
            (fun k => k ∉ keysOf (removePhase (collKeys root cp) cs.rendered ss.subs).1 ∧
              pm (resolveTpl tpl cp k) ≠ [])).map
          (fun k => (k, setDataKey ((pm (resolveTpl tpl cp k)).headD ⟨[]⟩) k))) := by
      rw [← hadd]
      exact hkin
    unfold keysOf at this
    rw [List.map_append] at this
    rcases List.mem_append.mp this with h1 | h1
    · exact hnp1 h1
    · rcases List.mem_map.mp h1 with ⟨kv, hkv, rfl⟩
      rcases List.mem_map.mp hkv with ⟨k3, hk3, rfl⟩
      have := List.of_mem_filter hk3
      simp only [decide_eq_true_eq] at this
      exact this.2 hp
  · intro el rest hp
    rw [hres]
    show assocGet (addPhase pm cp tpl (collKeys root cp) _ _).1 k = _
    rw [hadd]
    rw [assocGet_eq_none_append _ _ k (assocGet_none_of_not_mem _ k hnp1)]
    have hkf : k ∈ (collKeys root cp).filter
        (fun k => k ∉ keysOf (removePhase (collKeys root cp) cs.rendered ss.subs).1 ∧
          pm (resolveTpl tpl cp k) ≠ []) := by
      apply List.mem_filter.mpr
      refine ⟨hk, ?_⟩
      simp only [decide_eq_true_eq]
      exact ⟨hnp1, by rw [hp]; exact List.cons_ne_nil el rest⟩
    rw [assocGet_map_of_mem _ _ k hkf]
    rw [hp]
    rfl

/-- Witness for C8: with a zero-root template the key `"a"` is skipped; with
a two-root template the first root, tagged, is inserted for it. -/
theorem C8_witness :
    "a" ∉ keysOf (reconcile (fun _ => []) "todos" "x"
        (JsVal.obj [("todos", JsVal.obj [("a", JsVal.num 1)])]) ⟨[], ""⟩ ⟨[], []⟩).1.rendered ∧
    assocGet (reconcile (fun _ => [Elem.mk [DNode.mk 1 []], Elem.mk [DNode.mk 2 []]]) "todos" "x"
        (JsVal.obj [("todos", JsVal.obj [("a", JsVal.num 1)])]) ⟨[], ""⟩ ⟨[], []⟩).1.rendered "a"
      = some (setDataKey (Elem.mk [DNode.mk 1 []]) "a") :=
  ⟨(C8_skip_or_first (fun _ => []) "todos" "x"
      (JsVal.obj [("todos", JsVal.obj [("a", JsVal.num 1)])]) ⟨[], ""⟩ ⟨[], []⟩ "a"
      (by decide) (by decide) (by decide) (by simp [keysOf])).1 rfl,
   (C8_skip_or_first (fun _ => [Elem.mk [DNode.mk 1 []], Elem.mk [DNode.mk 2 []]]) "todos" "x"
      (JsVal.obj [("todos", JsVal.obj [("a", JsVal.num 1)])]) ⟨[], ""⟩ ⟨[], []⟩ "a"
      (by decide) (by decide) (by decide) (by simp [keysOf])).2
     (Elem.mk [DNode.mk 1 []]) [Elem.mk [DNode.mk 2 []]] rfl⟩
